import Mathlib

/-!
Verification of `scripts/harvest_alma_uk.py`: a single-pass pipeline that
filters a JSON array of clinic records to UK locations (postcode regex with a
latitude/longitude bounding-box fallback and a country denylist), deduplicates
them by a SHA-1 derived stable identifier, and writes a sorted CSV.

Modelling conventions (shallow embedding of the Python source):
* Python strings are Lean `String`s; the Unicode-aware character classes of
  the `re` module (`\s`, `\w`, `\d`, `[A-Z]` with `re.I`) and `str.strip`,
  `str.lower`, `str.upper` are modelled over their ASCII portions.
* Python floats produced by `float(...)` on decimal literals are modelled as
  exact decimal values `m * 10 ^ e` (structure `Dec`); comparisons against the
  bounding-box constants are exact rational comparisons.  Binary rounding of
  IEEE doubles at the box boundary, and overflow to infinity, are outside the
  model; `float` inputs `"inf"`/`"nan"` are modelled as parse failures, which
  gives the same admission verdict (the bounding-box test rejects them).
* `json.loads` objects are association lists with distinct keys; `dict.get`
  is association-list lookup.
* The repr of non-string JSON scalars and containers (used only when a record
  stores a number, list or object in a string field) is simplified; no claim
  depends on its exact spelling.
-/

namespace Alma

/-! ## Character classes (ASCII portions of the Python `re` classes) -/

/-- Whitespace characters recognised by the ASCII portion of the Python class
`\s` and of `str.strip`. -/
def isSpaceChar (c : Char) : Bool :=
  c == ' ' || c == '\t' || c == '\n' || c == '\r' || c == '\x0b' || c == '\x0c'

/-- Letters matched by `[A-Z]` under `re.I` (ASCII). -/
def isLetterChar (c : Char) : Bool :=
  ('A' ≤ c && c ≤ 'Z') || ('a' ≤ c && c ≤ 'z')

/-- Digits matched by `\d` (ASCII). -/
def isDigitChar (c : Char) : Bool :=
  '0' ≤ c && c ≤ '9'

/-- Characters matched by `\w` (ASCII), used by the word-boundary assertion
`\b` of the postcode regex. -/
def isWordChar (c : Char) : Bool :=
  isLetterChar c || isDigitChar c || c == '_'

/-! ## String helpers: `str.strip`, `str.lower`, `str.upper`, `norm_ws` -/

/-- Both-ends whitespace stripping on character lists (`str.strip()`). -/
def stripChars (l : List Char) : List Char :=
  ((l.dropWhile isSpaceChar).reverse.dropWhile isSpaceChar).reverse

/-- Python `str.strip()` (ASCII whitespace). -/
def pyStrip (s : String) : String :=
  String.mk (stripChars s.toList)

/-- Python `str.lower()` (ASCII). -/
def pyLower (s : String) : String :=
  String.mk (s.toList.map Char.toLower)

/-- Python `str.upper()` (ASCII). -/
def pyUpper (s : String) : String :=
  String.mk (s.toList.map Char.toUpper)

/-- Replacement of every maximal whitespace run by a single space, i.e.
`re.sub(r"\s+", " ", ·)`.  The flag records whether the previous character
belonged to a whitespace run that has already emitted its space. -/
def squeezeAux : Bool → List Char → List Char
  | _, [] => []
  | prevSpace, c :: rest =>
    if isSpaceChar c then
      if prevSpace then squeezeAux true rest else ' ' :: squeezeAux true rest
    else c :: squeezeAux false rest

/-- Source `norm_ws`: `re.sub(r"\s+", " ", (s or "").strip())`.  For a string
argument `s or ""` is the identity (the empty string maps to itself). -/
def norm_ws (s : String) : String :=
  String.mk (squeezeAux false (stripChars s.toList))

/-! ## JSON values (results of `json.loads`) -/

/-- Values of the parsed JSON document.  Numbers are decimal literals
`m * 10 ^ e`; object fields are association lists with distinct keys, as
produced by `json.loads`. -/
inductive JVal where
  | null : JVal
  | str (s : String) : JVal
  | num (m : Int) (e : Int) : JVal
  | bool (b : Bool) : JVal
  | arr (elems : List JVal) : JVal
  | obj (fields : List (String × JVal)) : JVal
deriving Repr

/-- Python truthiness test (`bool(v)`) for JSON values: `None`, `""`, `0`,
`False`, `[]` and the empty object are falsy. -/
def jFalsy : JVal → Bool
  | JVal.null => true
  | JVal.str s => s == ""
  | JVal.num m _ => m == 0
  | JVal.bool b => !b
  | JVal.arr elems => elems.isEmpty
  | JVal.obj fields => fields.isEmpty

/-- Rendering of a numeric JSON scalar, a simplified stand-in for the Python
`int`/`float` repr.  No claim depends on this rendering. -/
def numRepr (m e : Int) : String :=
  if e == 0 then toString m ++ ".0" else toString m ++ "e" ++ toString e

mutual
/-- Python `repr` of a parsed JSON value, simplified: strings are quoted
without escaping.  Used for elements of containers. -/
def pyRepr : JVal → String
  | JVal.null => "None"
  | JVal.str s => "'" ++ s ++ "'"
  | JVal.num m e => numRepr m e
  | JVal.bool b => if b then "True" else "False"
  | JVal.arr elems => "[" ++ String.intercalate ", " (pyReprList elems) ++ "]"
  | JVal.obj fields => "\x7b" ++ String.intercalate ", " (pyReprFields fields) ++ "\x7d"

/-- Reprs of the elements of a JSON array. -/
def pyReprList : List JVal → List String
  | [] => []
  | v :: rest => pyRepr v :: pyReprList rest

/-- Reprs of the fields of a JSON object. -/
def pyReprFields : List (String × JVal) → List String
  | [] => []
  | (k, v) :: rest => ("'" ++ k ++ "': " ++ pyRepr v) :: pyReprFields rest
end

/-- Python `str(v)` of a parsed JSON value. -/
def pyStr : JVal → String
  | JVal.str s => s
  | v => pyRepr v

/-- Association-list lookup, modelling `dict.get` on a `json.loads` object
(`none` when the key is absent). -/
def jLookup (fields : List (String × JVal)) (k : String) : Option JVal :=
  (fields.find? (fun p => p.1 == k)).map (fun p => p.2)

/-- Python `d.get(k)`: the stored value, or `None` when the key is absent. -/
def pyGet (fields : List (String × JVal)) (k : String) : JVal :=
  match jLookup fields k with
  | none => JVal.null
  | some v => v

/-- The idiom `str(d.get(k) or "")`: a falsy stored value (including a missing
key) degrades to the empty string before stringification. -/
def getStrOr (fields : List (String × JVal)) (k : String) : String :=
  pyStr (if jFalsy (pyGet fields k) then JVal.str "" else pyGet fields k)

/-! ## Exact decimal numbers: the model of parsed floats -/

/-- An exact decimal value `m * 10 ^ e`, the model of a Python float obtained
from a decimal literal. -/
structure Dec where
  m : Int
  e : Int
deriving Repr, DecidableEq

/-- The rational value of a decimal. -/
def Dec.toRat (d : Dec) : ℚ :=
  (d.m : ℚ) * 10 ^ d.e

/-- Exact comparison of two decimals, by scaling both to the smaller
exponent so that only integer arithmetic is needed. -/
def decLe (a b : Dec) : Bool :=
  a.m * 10 ^ (a.e - min a.e b.e).toNat ≤ b.m * 10 ^ (b.e - min a.e b.e).toNat

/-! ## Parsing of decimal strings (`float(...)` on its ASCII grammar) -/

/-- Numeric value of an ASCII digit. -/
def digitVal (c : Char) : Nat :=
  c.toNat - '0'.toNat

/-- Parsing of a digit group `D(_?D)*` (digits with single underscores
strictly between digits, as accepted by `float` since Python 3.6).  Returns
the accumulated value, the number of digits consumed, and the rest. -/
def parseDigits : List Char → Nat → Nat → Nat × Nat × List Char
  | [], acc, n => (acc, n, [])
  | c :: rest, acc, n =>
    if isDigitChar c then parseDigits rest (acc * 10 + digitVal c) (n + 1)
    else if c == '_' && n ≠ 0 then
      match rest with
      | d :: rest2 =>
        if isDigitChar d then parseDigits rest2 (acc * 10 + digitVal d) (n + 1)
        else (acc, n, c :: rest)
      | [] => (acc, n, [c])
    else (acc, n, c :: rest)

/-- Optional sign.  Returns the sign factor and the rest. -/
def parseSign : List Char → Int × List Char
  | '+' :: rest => (1, rest)
  | '-' :: rest => (-1, rest)
  | l => (1, l)

/-- Parsing of the exponent suffix `(e|E)[+-]?D+` after the mantissa; `none`
when the suffix is present but malformed. -/
def parseExpSuffix : List Char → Option Int
  | [] => some 0
  | c :: rest =>
    if c == 'e' || c == 'E' then
      let (es, r1) := parseSign rest
      match parseDigits r1 0 0 with
      | (ev, ec, r2) => if ec ≠ 0 && r2.isEmpty then some (es * ev) else none
    else none

/-- Parsing of a full decimal literal `[+-]?(D+ | D+.D* | .D+)[(e|E)[+-]?D+]`
(the ASCII grammar of `float`, excluding `inf`/`nan`, which this model treats
as parse failures; see the header). -/
def parseFloat? (l : List Char) : Option Dec :=
  let (sgn, r0) := parseSign l
  match parseDigits r0 0 0 with
  | (ip, ic, r1) =>
    match r1 with
    | '.' :: r2 =>
      match parseDigits r2 0 0 with
      | (fp, fc, r3) =>
        if ic + fc == 0 then none
        else
          match parseExpSuffix r3 with
          | some ex => some ⟨sgn * ((ip : Int) * 10 ^ fc + (fp : Int)), ex - (fc : Int)⟩
          | none => none
    | _ =>
      if ic == 0 then none
      else
        match parseExpSuffix r1 with
        | some ex => some ⟨sgn * (ip : Int), ex⟩
        | none => none

/-- Source `to_float`: `None` and non-string arguments are handled by the
callers (the `or ""` defaulting), so the model takes a string; stripping and
the empty-string check mirror the source, and a malformed literal yields
`none` instead of an exception. -/
def to_float (s : String) : Option Dec :=
  let ss := pyStrip s
  if ss == "" then none else parseFloat? ss.toList

/-! ## The UK bounding box -/

/-- Source constant `UK_LAT_MIN = 49.8`. -/
def UK_LAT_MIN : Dec := ⟨498, -1⟩

/-- Source constant `UK_LAT_MAX = 60.9`. -/
def UK_LAT_MAX : Dec := ⟨609, -1⟩

/-- Source constant `UK_LON_MIN = -8.5`. -/
def UK_LON_MIN : Dec := ⟨-85, -1⟩

/-- Source constant `UK_LON_MAX = 2.5`. -/
def UK_LON_MAX : Dec := ⟨25, -1⟩

/-- Source `in_uk_bbox`: `False` when either coordinate is missing, otherwise
the chained comparisons `UK_LAT_MIN <= lat <= UK_LAT_MAX` and
`UK_LON_MIN <= lon <= UK_LON_MAX`. -/
def in_uk_bbox (lat lon : Option Dec) : Bool :=
  match lat, lon with
  | some la, some lo =>
    decLe UK_LAT_MIN la && decLe la UK_LAT_MAX &&
      decLe UK_LON_MIN lo && decLe lo UK_LON_MAX
  | _, _ => false

/-! ## The UK postcode regex

The source compiles `UK_POSTCODE_RE = re.compile(r"\b([A-Z]{1,2}\d[A-Z\d]?\s*\d[A-Z]{2})\b", re.I)`
and calls `UK_POSTCODE_RE.search(addr)`.  The functions below are a direct
compilation of that pattern: `search` scans the start positions left to
right; at one start position the backtracking alternatives are explored in
the regex engine order, two area letters before one, the optional unit
character present before absent; `\s*` is deterministic because the
character after it must be a digit. -/

/-- Matching of the pattern tail `\s*\d[A-Z]{2}` at the start of `l`, ending
the group.  `acc` is the part of the group already matched; the result is the
whole group and the rest of the input. -/
def tailCand (acc : List Char) (l : List Char) : Option (List Char × List Char) :=
  match l.dropWhile isSpaceChar with
  | d :: x :: y :: rest =>
    if isDigitChar d && isLetterChar x && isLetterChar y then
      some (acc ++ l.takeWhile isSpaceChar ++ [d, x, y], rest)
    else none
  | _ => none

/-- Alternatives for `[A-Z\d]?\s*\d[A-Z]{2}`, in backtracking order:
the optional character consumed first, then left empty. -/
def optCands (acc : List Char) (l : List Char) : List (List Char × List Char) :=
  (match l with
   | c :: rest =>
     if isLetterChar c || isDigitChar c then (tailCand (acc ++ [c]) rest).toList else []
   | [] => []) ++ (tailCand acc l).toList

/-- Alternatives for `\d[A-Z\d]?\s*\d[A-Z]{2}`. -/
def digitCands (acc : List Char) (l : List Char) : List (List Char × List Char) :=
  match l with
  | d :: rest => if isDigitChar d then optCands (acc ++ [d]) rest else []
  | [] => []

/-- Alternatives for the whole group `[A-Z]{1,2}\d[A-Z\d]?\s*\d[A-Z]{2}` at
the start of `l`, in backtracking order: two area letters before one. -/
def groupCands (l : List Char) : List (List Char × List Char) :=
  match l with
  | a :: rest =>
    if isLetterChar a then
      (match rest with
       | b :: rest2 => if isLetterChar b then digitCands [a, b] rest2 else []
       | [] => []) ++ digitCands [a] rest
    else []
  | [] => []

/-- The trailing word-boundary test `\b` after the group: the rest of the
input is empty or starts with a non-word character (the group always ends in
a letter). -/
def trailOk (rest : List Char) : Bool :=
  match rest with
  | [] => true
  | c :: _ => !isWordChar c

/-- A match attempt at one start position: the first backtracking alternative
whose trailing boundary holds. -/
def tryHere (l : List Char) : Option (List Char) :=
  ((groupCands l).find? (fun p => trailOk p.2)).map (fun p => p.1)

/-- The leading word-boundary test before a start position, given the
character preceding it (`none` at the string start); the group always starts
with a letter. -/
def headOk (prev : Option Char) : Bool :=
  match prev with
  | none => true
  | some c => !isWordChar c

/-- The scan of `re.search`: start positions are tried left to right,
carrying the preceding character for the boundary test. -/
def searchAux (prev : Option Char) : List Char → Option (List Char)
  | [] => none
  | c :: rest =>
    match (if headOk prev then tryHere (c :: rest) else none) with
    | some g => some g
    | none => searchAux (some c) rest

/-- Source `extract_postcode`: the upper-cased first match of
`UK_POSTCODE_RE`, or the empty string without a match.  For the string
argument `addr or ""` is the identity. -/
def extract_postcode (addr : String) : String :=
  match searchAux none addr.toList with
  | some g => String.mk (g.map Char.toUpper)
  | none => ""

/-! ## SHA-1 (`hashlib.sha1(...).hexdigest()`) over `Nat` words -/

/-- UTF-8 encoding of one code point (`str.encode("utf-8")`), as byte
values. -/
def utf8Bytes (c : Char) : List Nat :=
  let n := c.toNat
  if n < 128 then [n]
  else if n < 2048 then [192 + n / 64, 128 + n % 64]
  else if n < 65536 then [224 + n / 4096, 128 + n / 64 % 64, 128 + n % 64]
  else [240 + n / 262144, 128 + n / 4096 % 64, 128 + n / 64 % 64, 128 + n % 64]

/-- UTF-8 encoding of a string, as byte values. -/
def strBytes (s : String) : List Nat :=
  (s.toList.map utf8Bytes).flatten

/-- Left rotation of a 32-bit word. -/
def rotl (k : Nat) (x : Nat) : Nat :=
  ((x <<< k) ||| (x >>> (32 - k))) % 4294967296

/-- The eight big-endian bytes of a 64-bit value. -/
def len64Bytes (n : Nat) : List Nat :=
  [n / 2 ^ 56 % 256, n / 2 ^ 48 % 256, n / 2 ^ 40 % 256, n / 2 ^ 32 % 256,
   n / 2 ^ 24 % 256, n / 2 ^ 16 % 256, n / 2 ^ 8 % 256, n % 256]

/-- SHA-1 message padding: a `0x80` byte, zeros up to 56 bytes modulo 64,
then the bit length as eight big-endian bytes. -/
def sha1pad (msg : List Nat) : List Nat :=
  msg ++ [128] ++ List.replicate ((119 - msg.length % 64) % 64) 0 ++
    len64Bytes (msg.length * 8)

/-- Big-endian 32-bit words of a chunk. -/
def bytesToWords : List Nat → List Nat
  | a :: b :: c :: d :: rest => (a * 16777216 + b * 65536 + c * 256 + d) :: bytesToWords rest
  | _ => []

/-- Word-schedule extension of the 16 chunk words to 80. -/
def extendWords (w : List Nat) : List Nat :=
  (List.range 64).foldl
    (fun acc _ =>
      acc ++ [rotl 1 ((acc.getD (acc.length - 3) 0 ^^^ acc.getD (acc.length - 8) 0) ^^^
        (acc.getD (acc.length - 14) 0 ^^^ acc.getD (acc.length - 16) 0))])
    w

/-- The SHA-1 round function per round index. -/
def sha1f (t b c d : Nat) : Nat :=
  if t < 20 then (b &&& c) ||| ((4294967295 ^^^ b) &&& d)
  else if t < 40 then (b ^^^ c) ^^^ d
  else if t < 60 then ((b &&& c) ||| (b &&& d)) ||| (c &&& d)
  else (b ^^^ c) ^^^ d

/-- The SHA-1 round constant per round index. -/
def sha1k (t : Nat) : Nat :=
  if t < 20 then 1518500249
  else if t < 40 then 1859775393
  else if t < 60 then 2400959708
  else 3395469782

/-- The SHA-1 state: five 32-bit words. -/
structure Sha1State where
  h0 : Nat
  h1 : Nat
  h2 : Nat
  h3 : Nat
  h4 : Nat

/-- Compression of one 64-byte chunk into the state. -/
def processChunk (st : Sha1State) (chunk : List Nat) : Sha1State :=
  let w := extendWords (bytesToWords chunk)
  let step := fun (q : Nat × Nat × Nat × Nat × Nat) (t : Nat) =>
    let (a, b, c, d, e) := q
    ((rotl 5 a + sha1f t b c d + e + sha1k t + w.getD t 0) % 4294967296,
      a, rotl 30 b, c, d)
  let (a, b, c, d, e) := (List.range 80).foldl step (st.h0, st.h1, st.h2, st.h3, st.h4)
  ⟨(st.h0 + a) % 4294967296, (st.h1 + b) % 4294967296, (st.h2 + c) % 4294967296,
    (st.h3 + d) % 4294967296, (st.h4 + e) % 4294967296⟩

/-- Splitting into 64-byte chunks, with a structural fuel argument (the
original length bounds the number of chunks). -/
def chunks64Aux : Nat → List Nat → List (List Nat)
  | 0, _ => []
  | _, [] => []
  | Nat.succ fuel, a :: rest => ((a :: rest).take 64) :: chunks64Aux fuel ((a :: rest).drop 64)

/-- Splitting of the padded message into 64-byte chunks. -/
def chunks64 (l : List Nat) : List (List Nat) :=
  chunks64Aux l.length l

/-- The four big-endian bytes of a 32-bit word. -/
def wordBytes (w : Nat) : List Nat :=
  [w / 16777216 % 256, w / 65536 % 256, w / 256 % 256, w % 256]

/-- Lowercase hexadecimal digits. -/
def hexDigits : List Char :=
  "0123456789abcdef".toList

/-- One lowercase hexadecimal digit. -/
def hexChar (n : Nat) : Char :=
  hexDigits.getD n '0'

/-- The two hexadecimal characters of a byte. -/
def byteHex (b : Nat) : List Char :=
  [hexChar (b / 16 % 16), hexChar (b % 16)]

/-- The twenty digest bytes of a final state. -/
def digestBytes (st : Sha1State) : List Nat :=
  ([st.h0, st.h1, st.h2, st.h3, st.h4].map wordBytes).flatten

/-- The initial SHA-1 state. -/
def sha1init : Sha1State :=
  ⟨1732584193, 4023233417, 2562383102, 271733878, 3285377520⟩

/-- The hexadecimal digest characters of `hashlib.sha1(s.encode("utf-8"))`. -/
def sha1hexChars (s : String) : List Char :=
  ((digestBytes ((chunks64 (sha1pad (strBytes s))).foldl processChunk sha1init)).map byteHex).flatten

/-- Source `stable_id`: the first sixteen characters of the SHA-1 hexadecimal
digest of `f"{name.lower()}|{postcode.upper()}|{lat}|{lon}"`. -/
def stable_id (name postcode lat lon : String) : String :=
  String.mk ((sha1hexChars (pyLower name ++ "|" ++ pyUpper postcode ++ "|" ++ lat ++ "|" ++ lon)).take 16)

/-! ## The output entity and the per-record pipeline -/

/-- The output dataclass `Location`, fields in declaration order. -/
structure Location where
  source : String
  source_ids : String
  name : String
  postcode : String
  streetaddress : String
  loc_lat : String
  loc_long : String
  website : String
  phone : String
deriving Repr, DecidableEq

/-- Source `pick_first`: the first key whose stored value is not `None` and
whose stripped stringification is non-empty; otherwise the empty string. -/
def pick_first (fields : List (String × JVal)) : List String → String
  | [] => ""
  | k :: ks =>
    match jLookup fields k with
    | none => pick_first fields ks
    | some JVal.null => pick_first fields ks
    | some v =>
      let v' := pyStrip (pyStr v)
      if v' == "" then pick_first fields ks else v'

/-- The nested `map` object: `item.get("map") or {}` followed by the
`isinstance(m, dict)` check, so a falsy or non-object value degrades to the
empty object. -/
def itemMap (fields : List (String × JVal)) : List (String × JVal) :=
  match (if jFalsy (pyGet fields "map") then JVal.obj [] else pyGet fields "map") with
  | JVal.obj m => m
  | _ => []

/-- The normalized title: `norm_ws(str(item.get("title") or ""))`. -/
def itemTitle (fields : List (String × JVal)) : String :=
  norm_ws (getStrOr fields "title")

/-- The normalized address: `norm_ws(str(m.get("address") or ""))`. -/
def itemAddress (fields : List (String × JVal)) : String :=
  norm_ws (getStrOr (itemMap fields) "address")

/-- The raw latitude string: `str(m.get("lat") or "").strip()`. -/
def itemLatS (fields : List (String × JVal)) : String :=
  pyStrip (getStrOr (itemMap fields) "lat")

/-- The raw longitude string: `str(m.get("lng") or "").strip()`. -/
def itemLonS (fields : List (String × JVal)) : String :=
  pyStrip (getStrOr (itemMap fields) "lng")

/-- The fixed denylist of the negative-country override (source line 127 and
line 133 spell out the same list twice; the first loop has no effect). -/
def badCountries : List String :=
  ["united arab emirates", "dubai", "australia", "south africa", "ecuador",
   "united states", "usa", "canada"]

/-- Containment of `needle` as a contiguous substring (Python `in`). -/
def listPrefixOf : List Char → List Char → Bool
  | [], _ => true
  | _ :: _, [] => false
  | nhd :: ntl, hhd :: htl => nhd == hhd && listPrefixOf ntl htl

/-- Containment of `needle` anywhere in `hay` (Python `needle in hay`). -/
def containsSub (needle : List Char) : List Char → Bool
  | [] => listPrefixOf needle []
  | c :: rest => listPrefixOf needle (c :: rest) || containsSub needle rest

/-- The denylist test: some bad substring occurs in the lowercased address
(`any(bad in addr_low for bad in [...])`). -/
def denyHit (address : String) : Bool :=
  badCountries.any (fun bad => containsSub bad.toList (pyLower address).toList)

/-- The UK admission test of source line 120: the record survives
`if not postcode and not in_uk_bbox(lat, lon): continue`. -/
def ukAdmission (postcode : String) (lat lon : Option Dec) : Bool :=
  !(postcode == "" && !in_uk_bbox lat lon)

/-- One iteration of the `for item in data` loop of `parse_dataset`: `none`
when the item is skipped (not a dict, not admitted, or denylisted), otherwise
the emitted `Location`. -/
def processItem : JVal → Option Location
  | JVal.obj fields =>
    let title := itemTitle fields
    let address := itemAddress fields
    let lat_s := itemLatS fields
    let lon_s := itemLonS fields
    let lat := to_float lat_s
    let lon := to_float lon_s
    let postcode := extract_postcode address
    if ukAdmission postcode lat lon then
      if postcode == "" && denyHit address then none
      else
        some ⟨"alma", stable_id title postcode lat_s lon_s, title, postcode,
          address, lat_s, lon_s,
          pick_first fields ["website", "url", "link"],
          pick_first fields ["phone", "tel", "telephone"]⟩
    else none
  | _ => none

/-! ## Deduplication (insertion-ordered dict keyed by `source_ids`) -/

/-- Assignment `uniq[k] = v` on an insertion-ordered dict: an existing key
keeps its position and takes the new value, a new key is appended. -/
def dictInsert (m : List (String × Location)) (k : String) (v : Location) :
    List (String × Location) :=
  if m.any (fun p => p.1 == k) then
    m.map (fun p => if p.1 == k then (k, v) else p)
  else m ++ [(k, v)]

/-- The dedup dict built by `for r in out: uniq[r.source_ids] = r`. -/
def pyDict (rows : List Location) : List (String × Location) :=
  rows.foldl (fun m r => dictInsert m r.source_ids r) []

/-- The deduplicated rows `list(uniq.values())`. -/
def dedupLocs (rows : List Location) : List Location :=
  (pyDict rows).map (fun p => p.2)

/-- The emitted rows of the filter loop, in emission order. -/
def emittedRows (data : List JVal) : List Location :=
  data.filterMap processItem

/-- Source `parse_dataset` after loading: the filter loop followed by the
dedup dict. -/
def parse_dataset (data : List JVal) : List Location :=
  dedupLocs (emittedRows data)

/-! ## The writer: ordering, CSV serialization, process interface -/

/-- Strict lexicographic comparison of character lists, the Python ordering
on strings (code points). -/
def charListLt : List Char → List Char → Bool
  | [], [] => false
  | [], _ :: _ => true
  | _ :: _, [] => false
  | a :: as, b :: bs => if a < b then true else if b < a then false else charListLt as bs

/-- Python `a < b` on strings. -/
def pyStrLt (a b : String) : Bool :=
  charListLt a.toList b.toList

/-- The idiom `s or ""` on a string sort key, the identity on strings. -/
def pyOrEmpty (s : String) : String :=
  if s == "" then "" else s

/-- The sort key order of `sorted(rows, key=lambda x: ((x.postcode or ""), (x.name or "")))`:
ascending lexicographic comparison of the `(postcode, name)` tuples. -/
def keyLe (r s : Location) : Bool :=
  pyStrLt (pyOrEmpty r.postcode) (pyOrEmpty s.postcode) ||
    (pyOrEmpty r.postcode == pyOrEmpty s.postcode &&
      (pyStrLt (pyOrEmpty r.name) (pyOrEmpty s.name) ||
        pyOrEmpty r.name == pyOrEmpty s.name))

/-- The sort key order as a relation. -/
def keyRel (r s : Location) : Prop :=
  keyLe r s = true

instance : DecidableRel keyRel :=
  fun r s => inferInstanceAs (Decidable (keyLe r s = true))

/-- Quoting condition of `csv.writer` under `QUOTE_MINIMAL`: the field holds
the delimiter, the quote character, or a line-terminator character. -/
def needsQuote (s : String) : Bool :=
  s.toList.any (fun c => c == ',' || c == '"' || c == '\r' || c == '\n')

/-- One serialized CSV field: quoted with doubled inner quotes when needed. -/
def csvField (s : String) : String :=
  if needsQuote s then
    "\"" ++ String.mk (s.toList.flatMap (fun c => if c == '"' then ['"', '"'] else [c])) ++ "\""
  else s

/-- One CSV record: comma-joined fields and the `\r\n` terminator of the
default dialect (the file is opened with `newline=""`, so no translation). -/
def csvLine (fs : List String) : String :=
  String.intercalate "," (fs.map csvField) ++ "\r\n"

/-- The `DictWriter` fieldnames: the dataclass fields in declaration order. -/
def fieldNames : List String :=
  ["source", "source_ids", "name", "postcode", "streetaddress", "loc_lat",
   "loc_long", "website", "phone"]

/-- The values of `asdict(r)` in fieldname order. -/
def rowFields (r : Location) : List String :=
  [r.source, r.source_ids, r.name, r.postcode, r.streetaddress, r.loc_lat,
   r.loc_long, r.website, r.phone]

/-- Source `write_csv`, as the text written to the file: the header row, then
one row per record in sorted order.  The Python `sorted` is a stable sort and
is modelled by insertion sort, which is also stable, so the produced text is
identical. -/
def write_csv (rows : List Location) : String :=
  csvLine fieldNames ++ String.join ((List.insertionSort keyRel rows).map (fun r => csvLine (rowFields r)))

/-- The fixed input path `LOCATIONS_JSON` (POSIX rendering). -/
def LOCATIONS_JSON : String :=
  "data/_debug/locations_array.txt"

/-- The fixed output path `OUT_DIR / "locations.csv"` (POSIX rendering). -/
def OUT_PATH : String :=
  "data/alma/locations.csv"

/-- The `SystemExit` diagnostic of source line 95. -/
def missingMsg : String :=
  "Missing " ++ LOCATIONS_JSON ++ ". Recreate it from data/_debug/find_clinics.html first."

/-- The summary line printed by `main`. -/
def summaryLine (rows : List Location) : String :=
  "WROTE: " ++ OUT_PATH ++ " rows: " ++ toString rows.length ++
    " (with_postcode=" ++ toString (rows.countP (fun r => r.postcode ≠ "")) ++ ")"

/-- The observable outcome of one process run. -/
structure RunResult where
  exitCode : Nat
  errMsg : Option String
  written : Option (String × String)
  stdoutLine : Option String
deriving Repr, DecidableEq

/-- Source `main`, over an abstract input state: `none` when the input file
is absent (the `SystemExit` branch, exit status 1, nothing written), `some
data` when it exists and parses as the JSON array `data`. -/
def mainFS (input : Option (List JVal)) : RunResult :=
  match input with
  | none => ⟨1, some missingMsg, none, none⟩
  | some data =>
    let rows := parse_dataset data
    ⟨0, none, some (OUT_PATH, write_csv rows), some (summaryLine rows)⟩

/-! ## Tidiness predicates for normalized strings -/

/-- No two adjacent whitespace characters. -/
def noDoubleSpace : List Char → Bool
  | a :: b :: rest => !(isSpaceChar a && isSpaceChar b) && noDoubleSpace (b :: rest)
  | _ => true

/-- Every whitespace character is a plain space. -/
def spacesAreSp (l : List Char) : Bool :=
  l.all (fun c => !isSpaceChar c || c == ' ')

/-- No leading whitespace, no trailing whitespace, no two adjacent
whitespace characters. -/
def wsTidy (l : List Char) : Bool :=
  (match l.head? with | some c => !isSpaceChar c | none => true) &&
    (match l.getLast? with | some c => !isSpaceChar c | none => true) &&
    noDoubleSpace l

/-! ## Lemmas about whitespace normalization -/

theorem dropWhile_head_not_space (l : List Char) :
    ∀ c, (l.dropWhile isSpaceChar).head? = some c → isSpaceChar c = false := by
  induction l with
  | nil => intro c h; simp at h
  | cons a rest ih =>
    intro c h
    rw [List.dropWhile_cons] at h
    by_cases ha : isSpaceChar a = true
    · rw [if_pos ha] at h
      exact ih c h
    · rw [if_neg ha] at h
      simp only [List.head?_cons, Option.some.injEq] at h
      rw [← h]
      exact Bool.not_eq_true _ ▸ ha

theorem stripChars_eq_rdrop (l : List Char) :
    stripChars l = List.rdropWhile isSpaceChar (l.dropWhile isSpaceChar) := rfl

theorem stripChars_head_not_space (l : List Char) :
    ∀ c, (stripChars l).head? = some c → isSpaceChar c = false := by
  intro c h
  obtain ⟨t, ht⟩ : stripChars l <+: l.dropWhile isSpaceChar := by
    rw [stripChars_eq_rdrop]
    exact List.rdropWhile_prefix _ _
  apply dropWhile_head_not_space l c
  rw [← ht]
  rcases hs : stripChars l with _ | ⟨a, as⟩
  · rw [hs] at h; simp at h
  · rw [hs] at h
    simpa using h

theorem stripChars_last_not_space (l : List Char) :
    ∀ c, (stripChars l).getLast? = some c → isSpaceChar c = false := by
  intro c h
  apply dropWhile_head_not_space (l.dropWhile isSpaceChar).reverse c
  have hrev : (stripChars l).reverse =
      ((l.dropWhile isSpaceChar).reverse).dropWhile isSpaceChar := by
    simp [stripChars]
  rw [← hrev, List.head?_reverse]
  exact h

theorem squeezeTrue_head_not_space (l : List Char) :
    ∀ c, (squeezeAux true l).head? = some c → isSpaceChar c = false := by
  induction l with
  | nil => intro c h; simp [squeezeAux] at h
  | cons a rest ih =>
    intro c h
    by_cases ha : isSpaceChar a = true
    · rw [squeezeAux, if_pos ha, if_pos rfl] at h
      exact ih c h
    · rw [squeezeAux, if_neg ha] at h
      simp only [List.head?_cons, Option.some.injEq] at h
      rw [← h]
      exact Bool.not_eq_true _ ▸ ha

theorem spacesAreSp_cons (c : Char) (l : List Char) :
    spacesAreSp (c :: l) = ((!isSpaceChar c || c == ' ') && spacesAreSp l) := by
  simp [spacesAreSp]

theorem squeeze_spaces (l : List Char) :
    ∀ b, spacesAreSp (squeezeAux b l) = true := by
  induction l with
  | nil => intro b; rfl
  | cons a rest ih =>
    intro b
    by_cases ha : isSpaceChar a = true
    · rw [squeezeAux, if_pos ha]
      cases b
      · rw [if_neg (by simp)]
        rw [spacesAreSp_cons, ih true]
        simp
      · rw [if_pos rfl]
        exact ih true
    · rw [squeezeAux, if_neg ha]
      rw [spacesAreSp_cons, ih false]
      have ha' : isSpaceChar a = false := by simpa using ha
      simp [ha']

theorem noDoubleSpace_cons (a : Char) (l : List Char) :
    noDoubleSpace (a :: l) =
      ((match l.head? with
        | some b => !(isSpaceChar a && isSpaceChar b)
        | none => true) && noDoubleSpace l) := by
  cases l with
  | nil => rfl
  | cons b rest => rfl

theorem squeeze_noDouble (l : List Char) :
    ∀ b, noDoubleSpace (squeezeAux b l) = true := by
  induction l with
  | nil => intro b; rfl
  | cons a rest ih =>
    intro b
    by_cases ha : isSpaceChar a = true
    · rw [squeezeAux, if_pos ha]
      cases b
      · rw [if_neg (by simp)]
        rw [noDoubleSpace_cons, ih true]
        rcases hh : (squeezeAux true rest).head? with _ | ⟨c⟩
        · simp
        · have hc := squeezeTrue_head_not_space rest c hh
          simp [hc]
      · rw [if_pos rfl]
        exact ih true
    · rw [squeezeAux, if_neg ha]
      rw [noDoubleSpace_cons, ih false]
      rcases hh : (squeezeAux false rest).head? with _ | ⟨c⟩
      · simp
      · simp [ha]

theorem squeeze_last (l : List Char) :
    ∀ (b : Bool) (c : Char), l.getLast? = some c → isSpaceChar c = false →
      ∃ d, (squeezeAux b l).getLast? = some d ∧ isSpaceChar d = false := by
  induction l with
  | nil => intro b c h1 _; simp at h1
  | cons a rest ih =>
    intro b c h1 h2
    cases rest with
    | nil =>
      have hac : a = c := by simpa using h1
      subst hac
      rw [squeezeAux, if_neg (by simp [h2])]
      exact ⟨a, by simp [squeezeAux], h2⟩
    | cons a2 rest2 =>
      have h1' : (a2 :: rest2).getLast? = some c := by
        rw [List.getLast?_cons_cons] at h1
        exact h1
      have step : ∀ b2 : Bool, ∃ d, (squeezeAux b2 (a2 :: rest2)).getLast? = some d ∧
          isSpaceChar d = false := fun b2 => ih b2 c h1' h2
      have stepCons : ∀ (z : Char) (b2 : Bool),
          ∃ d, (z :: squeezeAux b2 (a2 :: rest2)).getLast? = some d ∧
            isSpaceChar d = false := by
        intro z b2
        obtain ⟨d, hd1, hd2⟩ := step b2
        refine ⟨d, ?_, hd2⟩
        rcases hq : squeezeAux b2 (a2 :: rest2) with _ | ⟨e, es⟩
        · rw [hq] at hd1; simp at hd1
        · rw [hq] at hd1
          rw [List.getLast?_cons_cons]
          exact hd1
      by_cases ha : isSpaceChar a = true
      · rw [squeezeAux, if_pos ha]
        cases b
        · rw [if_neg (by simp)]
          exact stepCons ' ' true
        · rw [if_pos rfl]
          exact step true
      · rw [squeezeAux, if_neg ha]
        exact stepCons a false

theorem squeeze_fix (l : List Char) (h1 : spacesAreSp l = true)
    (h2 : noDoubleSpace l = true) :
    squeezeAux false l = l ∧
      ((match l.head? with | some c => isSpaceChar c = false | none => True) →
        squeezeAux true l = l) := by
  induction l with
  | nil => exact ⟨rfl, fun _ => rfl⟩
  | cons a rest ih =>
    rw [spacesAreSp_cons] at h1
    rw [noDoubleSpace_cons] at h2
    have h1r : spacesAreSp rest = true := by
      rcases Bool.and_eq_true_iff.mp h1 with ⟨_, hr⟩
      exact hr
    have h2r : noDoubleSpace rest = true := by
      rcases Bool.and_eq_true_iff.mp h2 with ⟨_, hr⟩
      exact hr
    obtain ⟨ihf, iht⟩ := ih h1r h2r
    by_cases ha : isSpaceChar a = true
    · have hasp : a = ' ' := by
        rcases Bool.and_eq_true_iff.mp h1 with ⟨h1a, _⟩
        rw [ha] at h1a
        simpa using h1a
      have hresttrue : squeezeAux true rest = rest := by
        apply iht
        rcases hh : rest.head? with _ | ⟨c⟩
        · trivial
        · rcases Bool.and_eq_true_iff.mp h2 with ⟨h2a, _⟩
          rw [hh] at h2a
          simp only [ha, Bool.true_and] at h2a
          simpa using h2a
      constructor
      · rw [squeezeAux, if_pos ha, if_neg (by simp), hresttrue, hasp]
      · intro hhead
        simp only [List.head?_cons] at hhead
        rw [ha] at hhead
        exact absurd hhead (by simp)
    · constructor
      · rw [squeezeAux, if_neg ha, ihf]
      · intro _
        rw [squeezeAux, if_neg ha, ihf]

theorem dropWhile_eq_self_of_head (l : List Char)
    (h : match l.head? with | some c => isSpaceChar c = false | none => True) :
    l.dropWhile isSpaceChar = l := by
  cases l with
  | nil => rfl
  | cons a rest =>
    simp only [List.head?_cons] at h
    rw [List.dropWhile_cons, if_neg (by simp [h])]

theorem stripChars_fix (l : List Char)
    (hh : match l.head? with | some c => isSpaceChar c = false | none => True)
    (ht : match l.getLast? with | some c => isSpaceChar c = false | none => True) :
    stripChars l = l := by
  unfold stripChars
  rw [dropWhile_eq_self_of_head l hh]
  have : l.reverse.dropWhile isSpaceChar = l.reverse := by
    apply dropWhile_eq_self_of_head
    rw [List.head?_reverse]
    exact ht
  rw [this, List.reverse_reverse]

/-- The character list of a `norm_ws` result. -/
theorem norm_ws_toList (s : String) :
    (norm_ws s).toList = squeezeAux false (stripChars s.toList) := rfl

theorem norm_ws_head_not_space (s : String) :
    ∀ c, (norm_ws s).toList.head? = some c → isSpaceChar c = false := by
  intro c h
  rw [norm_ws_toList] at h
  rcases hu : stripChars s.toList with _ | ⟨a, as⟩
  · rw [hu] at h; simp [squeezeAux] at h
  · rw [hu] at h
    have ha : isSpaceChar a = false :=
      stripChars_head_not_space s.toList a (by rw [hu]; rfl)
    rw [squeezeAux, if_neg (by simp [ha])] at h
    simp only [List.head?_cons, Option.some.injEq] at h
    rw [← h]
    exact ha

theorem norm_ws_last_not_space (s : String) :
    ∀ c, (norm_ws s).toList.getLast? = some c → isSpaceChar c = false := by
  intro c h
  rw [norm_ws_toList] at h
  rcases hu : (stripChars s.toList).getLast? with _ | ⟨e⟩
  · rw [List.getLast?_eq_none_iff] at hu
    rw [hu] at h
    simp [squeezeAux] at h
  · have he : isSpaceChar e = false := stripChars_last_not_space s.toList e hu
    obtain ⟨d, hd1, hd2⟩ := squeeze_last (stripChars s.toList) false e hu he
    rw [hd1] at h
    rw [← Option.some.inj h]
    exact hd2

/-- A `norm_ws` result is tidy: no leading or trailing whitespace and no run
of two or more whitespace characters, and all whitespace is a plain space. -/
theorem norm_ws_tidy (s : String) :
    wsTidy (norm_ws s).toList = true ∧ spacesAreSp (norm_ws s).toList = true := by
  constructor
  · unfold wsTidy
    refine Bool.and_eq_true_iff.mpr ⟨Bool.and_eq_true_iff.mpr ⟨?_, ?_⟩, ?_⟩
    · rcases hh : (norm_ws s).toList.head? with _ | ⟨c⟩
      · rfl
      · simp [norm_ws_head_not_space s c hh]
    · rcases hh : (norm_ws s).toList.getLast? with _ | ⟨c⟩
      · rfl
      · simp [norm_ws_last_not_space s c hh]
    · rw [norm_ws_toList]
      exact squeeze_noDouble _ false
  · rw [norm_ws_toList]
    exact squeeze_spaces _ false

/-- Idempotence of `norm_ws`. -/
theorem norm_ws_idem (s : String) : norm_ws (norm_ws s) = norm_ws s := by
  have hfixstrip : stripChars (norm_ws s).toList = (norm_ws s).toList := by
    apply stripChars_fix
    · rcases hh : (norm_ws s).toList.head? with _ | ⟨c⟩
      · trivial
      · exact norm_ws_head_not_space s c hh
    · rcases hh : (norm_ws s).toList.getLast? with _ | ⟨c⟩
      · trivial
      · exact norm_ws_last_not_space s c hh
  have hfixsq : squeezeAux false (norm_ws s).toList = (norm_ws s).toList := by
    have h1 : spacesAreSp (norm_ws s).toList = true := (norm_ws_tidy s).2
    have h2 : noDoubleSpace (norm_ws s).toList = true := by
      rw [norm_ws_toList]
      exact squeeze_noDouble _ false
    exact (squeeze_fix _ h1 h2).1
  show String.mk (squeezeAux false (stripChars (norm_ws s).toList)) = norm_ws s
  rw [hfixstrip, hfixsq]
  rfl

/-! ## Lemmas about the dedup dict -/

/-- Lookup in the dedup dict. -/
def lookupKV (m : List (String × Location)) (k : String) : Option Location :=
  (m.find? (fun p => p.1 == k)).map (fun p => p.2)

theorem find?_cons_true {α : Type} (p : α → Bool) (a : α) (l : List α)
    (h : p a = true) : List.find? p (a :: l) = some a := by
  rw [List.find?_cons, h]

theorem find?_cons_false {α : Type} (p : α → Bool) (a : α) (l : List α)
    (h : p a = false) : List.find? p (a :: l) = List.find? p l := by
  rw [List.find?_cons, h]

theorem filter_cons_true {α : Type} (p : α → Bool) (a : α) (l : List α)
    (h : p a = true) : List.filter p (a :: l) = a :: List.filter p l := by
  simp [List.filter_cons, h]

theorem filter_cons_false {α : Type} (p : α → Bool) (a : α) (l : List α)
    (h : p a = false) : List.filter p (a :: l) = List.filter p l := by
  simp [List.filter_cons, h]

theorem find?_map_update (k : String) (v : Location) :
    ∀ m : List (String × Location), m.any (fun p => p.1 == k) = true →
      ((m.map (fun p => if p.1 == k then (k, v) else p)).find? (fun p => p.1 == k)) =
        some (k, v) := by
  intro m
  induction m with
  | nil => intro h; simp at h
  | cons p rest ih =>
    intro h
    by_cases hp : (p.1 == k) = true
    · rw [List.map_cons, if_pos hp]
      exact find?_cons_true (fun q => q.1 == k) (k, v) _ (by simp)
    · rw [List.map_cons, if_neg hp,
        find?_cons_false (fun q => q.1 == k) p _ (Bool.eq_false_iff.mpr hp)]
      apply ih
      simp only [List.any_cons, Bool.or_eq_true] at h
      rcases h with h | h
      · exact absurd h hp
      · exact h

theorem find?_append_new (k : String) (v : Location) :
    ∀ m : List (String × Location), m.any (fun p => p.1 == k) = false →
      ((m ++ [(k, v)]).find? (fun p => p.1 == k)) = some (k, v) := by
  intro m
  induction m with
  | nil =>
    intro _
    simp only [List.nil_append]
    exact find?_cons_true (fun q => q.1 == k) (k, v) _ (by simp)
  | cons p rest ih =>
    intro h
    simp only [List.any_cons, Bool.or_eq_false_iff] at h
    rw [List.cons_append, find?_cons_false (fun q => q.1 == k) p _ h.1]
    exact ih h.2

theorem find?_map_update_other (k' : String) (v : Location) (k : String) (hk : k' ≠ k) :
    ∀ m : List (String × Location),
      ((m.map (fun p => if p.1 == k' then (k', v) else p)).find? (fun p => p.1 == k)) =
        m.find? (fun p => p.1 == k) := by
  intro m
  induction m with
  | nil => rfl
  | cons p rest ih =>
    by_cases hp : (p.1 == k') = true
    · have hp1 : p.1 = k' := by simpa using hp
      rw [List.map_cons, if_pos hp,
        find?_cons_false (fun q => q.1 == k) (k', v) _ (by simp [hk]),
        find?_cons_false (fun q => q.1 == k) p _ (by simp [hp1, hk]), ih]
    · rw [List.map_cons, if_neg hp]
      by_cases hq : (p.1 == k) = true
      · rw [find?_cons_true (fun q => q.1 == k) p _ hq,
          find?_cons_true (fun q => q.1 == k) p _ hq]
      · rw [find?_cons_false (fun q => q.1 == k) p _ (Bool.eq_false_iff.mpr hq),
          find?_cons_false (fun q => q.1 == k) p _ (Bool.eq_false_iff.mpr hq), ih]

theorem find?_append_other (k' : String) (v : Location) (k : String) (hk : k' ≠ k) :
    ∀ m : List (String × Location),
      ((m ++ [(k', v)]).find? (fun p => p.1 == k)) = m.find? (fun p => p.1 == k) := by
  intro m
  induction m with
  | nil =>
    simp only [List.nil_append]
    rw [find?_cons_false (fun q => q.1 == k) (k', v) _ (by simp [hk])]
  | cons p rest ih =>
    by_cases hq : (p.1 == k) = true
    · rw [List.cons_append, find?_cons_true (fun q => q.1 == k) p _ hq,
        find?_cons_true (fun q => q.1 == k) p _ hq]
    · rw [List.cons_append, find?_cons_false (fun q => q.1 == k) p _ (Bool.eq_false_iff.mpr hq),
        find?_cons_false (fun q => q.1 == k) p _ (Bool.eq_false_iff.mpr hq), ih]

theorem dictInsert_lookup_self (m : List (String × Location)) (k : String) (v : Location) :
    lookupKV (dictInsert m k v) k = some v := by
  unfold dictInsert lookupKV
  by_cases hm : m.any (fun p => p.1 == k) = true
  · rw [if_pos hm, find?_map_update k v m hm]
    rfl
  · rw [if_neg hm, find?_append_new k v m (Bool.eq_false_iff.mpr hm)]
    rfl

theorem dictInsert_lookup_other (m : List (String × Location)) (k' : String)
    (v : Location) (k : String) (hk : k' ≠ k) :
    lookupKV (dictInsert m k' v) k = lookupKV m k := by
  unfold dictInsert lookupKV
  by_cases hm : m.any (fun p => p.1 == k') = true
  · rw [if_pos hm, find?_map_update_other k' v k hk m]
  · rw [if_neg hm, find?_append_other k' v k hk m]

theorem foldIns_lookup (rows : List Location) :
    ∀ (m : List (String × Location)) (k : String),
      lookupKV (rows.foldl (fun m r => dictInsert m r.source_ids r) m) k =
        match (rows.filter (fun r => r.source_ids == k)).getLast? with
        | some r => some r
        | none => lookupKV m k := by
  induction rows with
  | nil => intro m k; simp
  | cons r rest ih =>
    intro m k
    rw [List.foldl_cons, ih (dictInsert m r.source_ids r) k]
    by_cases hr : (r.source_ids == k) = true
    · have hr1 : r.source_ids = k := by simpa using hr
      rw [filter_cons_true (fun r => r.source_ids == k) r rest hr]
      rcases hfr : (rest.filter (fun r => r.source_ids == k)).getLast? with _ | ⟨r'⟩
      · rw [List.getLast?_eq_none_iff] at hfr
        rw [hfr, hr1]
        show lookupKV (dictInsert m k r) k = some r
        exact dictInsert_lookup_self m k r
      · have hcons : (r :: rest.filter (fun r => r.source_ids == k)).getLast? = some r' := by
          rcases hq : rest.filter (fun r => r.source_ids == k) with _ | ⟨e, es⟩
          · rw [hq] at hfr; simp at hfr
          · rw [hq] at hfr
            rw [hq, List.getLast?_cons_cons]
            exact hfr
        rw [hfr, hcons]
    · have hr1 : r.source_ids ≠ k := by simpa using hr
      rw [filter_cons_false (fun r => r.source_ids == k) r rest (Bool.eq_false_iff.mpr hr)]
      rcases hfr : (rest.filter (fun r => r.source_ids == k)).getLast? with _ | ⟨r'⟩
      · rw [hfr]
        show lookupKV (dictInsert m r.source_ids r) k = lookupKV m k
        exact dictInsert_lookup_other m r.source_ids r k hr1
      · rw [hfr]

theorem map_update_keys (k : String) (v : Location) :
    ∀ m : List (String × Location),
      ((m.map (fun p => if p.1 == k then (k, v) else p)).map (fun p => p.1)) =
        m.map (fun p => p.1) := by
  intro m
  induction m with
  | nil => rfl
  | cons p rest ih =>
    by_cases hp : (p.1 == k) = true
    · have hp1 : p.1 = k := by simpa using hp
      rw [List.map_cons, List.map_cons, if_pos hp, ih, List.map_cons, hp1]
    · simp only [List.map_cons, if_neg hp, ih]

theorem dictInsert_keys (m : List (String × Location)) (k : String) (v : Location) :
    (dictInsert m k v).map (fun p => p.1) =
      if m.any (fun p => p.1 == k) then m.map (fun p => p.1)
      else m.map (fun p => p.1) ++ [k] := by
  unfold dictInsert
  by_cases hm : m.any (fun p => p.1 == k) = true
  · rw [if_pos hm, if_pos hm, map_update_keys]
  · rw [if_neg hm, if_neg hm]
    simp

theorem foldIns_keys_nodup (rows : List Location) :
    ∀ m : List (String × Location), (m.map (fun p => p.1)).Nodup →
      ((rows.foldl (fun m r => dictInsert m r.source_ids r) m).map (fun p => p.1)).Nodup := by
  induction rows with
  | nil => intro m h; exact h
  | cons r rest ih =>
    intro m h
    rw [List.foldl_cons]
    apply ih
    rw [dictInsert_keys]
    by_cases hm : m.any (fun p => p.1 == r.source_ids)
    · rw [if_pos hm]; exact h
    · rw [if_neg hm]
      have hnotin : r.source_ids ∉ m.map (fun p => p.1) := by
        intro hmem
        rcases List.mem_map.mp hmem with ⟨p, hp, hpk⟩
        have hfalse : (p.1 == r.source_ids) = false :=
          Bool.eq_false_iff.mpr ((List.any_eq_false.mp (Bool.eq_false_iff.mpr hm)) p hp)
        rw [hpk] at hfalse
        simp at hfalse
      simp [List.nodup_append, h, hnotin]

theorem foldIns_inv (rows : List Location) :
    ∀ m : List (String × Location), (∀ p ∈ m, p.2.source_ids = p.1) →
      ∀ p ∈ rows.foldl (fun m r => dictInsert m r.source_ids r) m, p.2.source_ids = p.1 := by
  induction rows with
  | nil => intro m h; exact h
  | cons r rest ih =>
    intro m h
    rw [List.foldl_cons]
    apply ih
    intro p hp
    unfold dictInsert at hp
    by_cases hm : m.any (fun q => q.1 == r.source_ids)
    · rw [if_pos hm] at hp
      rcases List.mem_map.mp hp with ⟨q, hq, hqe⟩
      by_cases hqk : q.1 == r.source_ids
      · rw [if_pos hqk] at hqe
        rw [← hqe]
      · rw [if_neg hqk] at hqe
        rw [← hqe]
        exact h q hq
    · rw [if_neg hm] at hp
      rcases List.mem_append.mp hp with hq | hq
      · exact h p hq
      · rcases List.mem_singleton.mp hq with rfl
        rfl

theorem foldIns_values_subset (rows : List Location) :
    ∀ m : List (String × Location),
      ∀ p ∈ rows.foldl (fun m r => dictInsert m r.source_ids r) m,
        p.2 ∈ m.map (fun q => q.2) ∨ p.2 ∈ rows := by
  induction rows with
  | nil => intro m p hp; exact Or.inl (List.mem_map.mpr ⟨p, hp, rfl⟩)
  | cons r rest ih =>
    intro m p hp
    rw [List.foldl_cons] at hp
    rcases ih (dictInsert m r.source_ids r) p hp with hv | hv
    · rcases List.mem_map.mp hv with ⟨q, hq, hqe⟩
      unfold dictInsert at hq
      by_cases hm : m.any (fun w => w.1 == r.source_ids)
      · rw [if_pos hm] at hq
        rcases List.mem_map.mp hq with ⟨w, hw, hwe⟩
        by_cases hwk : w.1 == r.source_ids
        · rw [if_pos hwk] at hwe
          right
          rw [← hqe, ← hwe]
          exact List.mem_cons_self _ _
        · rw [if_neg hwk] at hwe
          left
          rw [← hqe, ← hwe]
          exact List.mem_map.mpr ⟨w, hw, rfl⟩
      · rw [if_neg hm] at hq
        rcases List.mem_append.mp hq with hw | hw
        · left
          rw [← hqe]
          exact List.mem_map.mpr ⟨q, hw, rfl⟩
        · rcases List.mem_singleton.mp hw with rfl
          right
          rw [← hqe]
          exact List.mem_cons_self _ _
    · right
      exact List.mem_cons_of_mem _ hv

theorem filter_eq_find?_toList_of_nodup (k : String) :
    ∀ m : List (String × Location), (m.map (fun p => p.1)).Nodup →
      m.filter (fun p => p.1 == k) = (m.find? (fun p => p.1 == k)).toList := by
  intro m
  induction m with
  | nil => intro _; rfl
  | cons p rest ih =>
    intro h
    rw [List.map_cons, List.nodup_cons] at h
    by_cases hp : p.1 == k
    · have hp1 : p.1 = k := by simpa using hp
      rw [filter_cons_true (fun q => q.1 == k) p rest hp,
        find?_cons_true (fun q => q.1 == k) p rest hp]
      have hrest : rest.filter (fun q => q.1 == k) = [] := by
        apply List.filter_eq_nil_iff.mpr
        intro q hq
        intro hqk
        apply h.1
        rw [hp1]
        exact List.mem_map.mpr ⟨q, hq, by simpa using hqk⟩
      rw [hrest]
      rfl
    · rw [filter_cons_false (fun q => q.1 == k) p rest (Bool.eq_false_iff.mpr hp),
        find?_cons_false (fun q => q.1 == k) p rest (Bool.eq_false_iff.mpr hp)]
      exact ih h.2

/-- The rows surviving dedup that carry a given `source_ids` value: exactly
the last emitted row with that value (none when there is none). -/
theorem dedup_filter (rows : List Location) (k : String) :
    (dedupLocs rows).filter (fun r => r.source_ids == k) =
      ((rows.filter (fun r => r.source_ids == k)).getLast?).toList := by
  unfold dedupLocs
  rw [List.filter_map]
  have hinv : ∀ p ∈ pyDict rows, p.2.source_ids = p.1 :=
    foldIns_inv rows [] (by intro p hp; simp at hp)
  have hcong : (pyDict rows).filter ((fun r => r.source_ids == k) ∘ (fun p => p.2)) =
      (pyDict rows).filter (fun p => p.1 == k) := by
    apply List.filter_congr
    intro p hp
    simp only [Function.comp_apply]
    rw [hinv p hp]
  rw [hcong]
  have hnodup : ((pyDict rows).map (fun p => p.1)).Nodup :=
    foldIns_keys_nodup rows [] (by simp)
  rw [filter_eq_find?_toList_of_nodup k (pyDict rows) hnodup]
  have hlook : lookupKV (pyDict rows) k =
      (rows.filter (fun r => r.source_ids == k)).getLast? := by
    have := foldIns_lookup rows [] k
    unfold pyDict
    rw [this]
    rcases hq : (rows.filter (fun r => r.source_ids == k)).getLast? with _ | ⟨r⟩
    · rw [hq]
      rfl
    · rw [hq]
  rw [← hlook]
  unfold lookupKV
  rcases hf : (pyDict rows).find? (fun p => p.1 == k) with _ | ⟨p⟩
  · rw [hf]
    rfl
  · rw [hf]
    rfl

/-- Rows surviving dedup were emitted. -/
theorem dedup_subset (rows : List Location) (r : Location)
    (h : r ∈ dedupLocs rows) : r ∈ rows := by
  unfold dedupLocs at h
  rcases List.mem_map.mp h with ⟨p, hp, hpe⟩
  rcases foldIns_values_subset rows [] p hp with hv | hv
  · simp at hv
  · rw [← hpe]
    exact hv

/-! ## Lemmas about the stable identifier -/

theorem digestBytes_length (st : Sha1State) : (digestBytes st).length = 20 := by
  simp [digestBytes, wordBytes]

theorem byteHex_flatten_length (bytes : List Nat) :
    ((bytes.map byteHex).flatten).length = 2 * bytes.length := by
  induction bytes with
  | nil => rfl
  | cons b rest ih =>
    simp only [List.map_cons, List.flatten_cons, List.length_append, ih, byteHex]
    simp
    ring

theorem sha1hexChars_length (s : String) : (sha1hexChars s).length = 40 := by
  unfold sha1hexChars
  rw [byteHex_flatten_length, digestBytes_length]

theorem hexChar_mem (n : Nat) : hexChar n ∈ hexDigits := by
  unfold hexChar
  rcases hg : hexDigits.get? n with _ | ⟨c⟩
  · rw [List.getD_eq_getElem?_getD, ← List.get?_eq_getElem?, hg]
    decide
  · rw [List.getD_eq_getElem?_getD, ← List.get?_eq_getElem?, hg]
    exact List.get?_mem hg

theorem sha1hexChars_mem (s : String) :
    ∀ c ∈ sha1hexChars s, c ∈ hexDigits := by
  intro c hc
  unfold sha1hexChars at hc
  rcases List.mem_flatten.mp hc with ⟨chunk, hchunk, hcin⟩
  rcases List.mem_map.mp hchunk with ⟨b, _, hbe⟩
  rw [← hbe] at hcin
  unfold byteHex at hcin
  rcases List.mem_cons.mp hcin with h | h
  · rw [h]; exact hexChar_mem _
  · rw [List.mem_singleton.mp h]; exact hexChar_mem _

/-- The stable identifier is sixteen characters long, all lowercase
hexadecimal digits. -/
theorem stable_id_hex16 (name postcode lat lon : String) :
    (stable_id name postcode lat lon).length = 16 ∧
      ∀ c ∈ (stable_id name postcode lat lon).toList, c ∈ hexDigits := by
  constructor
  · show (List.take 16 _).length = 16
    rw [List.length_take, sha1hexChars_length]
    decide
  · intro c hc
    have hc' : c ∈ (sha1hexChars
        (pyLower name ++ "|" ++ pyUpper postcode ++ "|" ++ lat ++ "|" ++ lon)).take 16 := hc
    exact sha1hexChars_mem _ c (List.take_subset _ _ hc')

/-- The stable identifier only depends on the lowercased name, the
uppercased postcode and the raw coordinate strings. -/
theorem stable_id_congr (name postcode name' postcode' lat lon : String)
    (h1 : pyLower name = pyLower name') (h2 : pyUpper postcode = pyUpper postcode') :
    stable_id name postcode lat lon = stable_id name' postcode' lat lon := by
  unfold stable_id
  rw [h1, h2]

/-! ## Lemmas about the decimal comparison -/

theorem decLe_iff (a b : Dec) : decLe a b = true ↔ a.toRat ≤ b.toRat := by
  unfold decLe Dec.toRat
  rw [decide_eq_true_eq]
  have key : ∀ m e : ℤ, 0 ≤ e - min a.e b.e →
      (m : ℚ) * 10 ^ e =
        ((m * 10 ^ (e - min a.e b.e).toNat : ℤ) : ℚ) * 10 ^ (min a.e b.e) := by
    intro m e he
    push_cast
    rw [mul_assoc]
    congr 1
    rw [← zpow_natCast (10 : ℚ) (e - min a.e b.e).toNat,
      Int.toNat_of_nonneg he, ← zpow_add₀ (by norm_num : (10:ℚ) ≠ 0)]
    congr 1
    ring
  rw [key a.m a.e (by simp [sub_nonneg, min_le_left]),
    key b.m b.e (by simp [sub_nonneg, min_le_right]),
    mul_le_mul_right (show (0:ℚ) < 10 ^ (min a.e b.e) from zpow_pos (by norm_num) _)]
  exact Int.cast_le.symm

theorem UK_LAT_MIN_toRat : UK_LAT_MIN.toRat = 49.8 := by
  unfold UK_LAT_MIN Dec.toRat
  norm_num [zpow_neg]

theorem UK_LAT_MAX_toRat : UK_LAT_MAX.toRat = 60.9 := by
  unfold UK_LAT_MAX Dec.toRat
  norm_num [zpow_neg]

theorem UK_LON_MIN_toRat : UK_LON_MIN.toRat = -8.5 := by
  unfold UK_LON_MIN Dec.toRat
  norm_num [zpow_neg]

theorem UK_LON_MAX_toRat : UK_LON_MAX.toRat = 2.5 := by
  unfold UK_LON_MAX Dec.toRat
  norm_num [zpow_neg]

/-- The bounding-box test in terms of exact rational coordinates. -/
theorem in_uk_bbox_iff (lat lon : Option Dec) :
    in_uk_bbox lat lon = true ↔
      ∃ la lo : Dec, lat = some la ∧ lon = some lo ∧
        49.8 ≤ la.toRat ∧ la.toRat ≤ 60.9 ∧ -8.5 ≤ lo.toRat ∧ lo.toRat ≤ 2.5 := by
  cases lat with
  | none => simp [in_uk_bbox]
  | some la =>
    cases lon with
    | none => simp [in_uk_bbox]
    | some lo =>
      unfold in_uk_bbox
      simp only [Bool.and_eq_true, decLe_iff, UK_LAT_MIN_toRat, UK_LAT_MAX_toRat,
        UK_LON_MIN_toRat, UK_LON_MAX_toRat]
      constructor
      · rintro ⟨⟨⟨h1, h2⟩, h3⟩, h4⟩
        exact ⟨la, lo, rfl, rfl, h1, h2, h3, h4⟩
      · rintro ⟨la', lo', hla, hlo, h1, h2, h3, h4⟩
        rcases Option.some.inj hla with rfl
        rcases Option.some.inj hlo with rfl
        exact ⟨⟨⟨h1, h2⟩, h3⟩, h4⟩

/-! ## The declarative reading of the postcode pattern

The functions below recognise exactly the instances of the group pattern
`[A-Z]{1,2}\d[A-Z\d]?\s*\d[A-Z]{2}`, scanning the candidate group itself
(they consume the whole list); they are the specification side against which
the backtracking search is proved correct. -/

/-- The list is `\s*\d[A-Z]{2}` exactly. -/
def tailOk (l : List Char) : Bool :=
  match l.dropWhile isSpaceChar with
  | [d, x, y] => isDigitChar d && isLetterChar x && isLetterChar y
  | _ => false

/-- The list is `[A-Z\d]?\s*\d[A-Z]{2}` exactly. -/
def afterDigitOk (l : List Char) : Bool :=
  tailOk l ||
    (match l with
     | c :: rest => (isLetterChar c || isDigitChar c) && tailOk rest
     | [] => false)

/-- The list is `\d[A-Z\d]?\s*\d[A-Z]{2}` exactly. -/
def afterLettersOk (l : List Char) : Bool :=
  match l with
  | d :: rest => isDigitChar d && afterDigitOk rest
  | [] => false

/-- The list is a full group-pattern instance. -/
def coreOk (l : List Char) : Bool :=
  match l with
  | a :: rest =>
    isLetterChar a &&
      (afterLettersOk rest ||
        (match rest with
         | b :: r2 => isLetterChar b && afterLettersOk r2
         | [] => false))
  | [] => false

/-- A boundary-delimited occurrence of a group-pattern instance `g` at
position `i` of `l`: the characters adjacent to `g` on either side, when they
exist, are not word characters. -/
def MatchAt (l : List Char) (i : Nat) (g : List Char) : Prop :=
  ∃ pre post, l = pre ++ g ++ post ∧ pre.length = i ∧ coreOk g = true ∧
    (match pre.getLast? with | some c => isWordChar c = false | none => True) ∧
    (match post.head? with | some c => isWordChar c = false | none => True)

/-! ## Lemmas: candidate generation matches the declarative pattern -/

theorem digit_not_space (c : Char) (h : isDigitChar c = true) :
    isSpaceChar c = false := by
  unfold isDigitChar at h
  rcases Bool.and_eq_true_iff.mp h with ⟨h1, h2⟩
  have h1' : '0' ≤ c := by simpa using h1
  unfold isSpaceChar
  simp only [Bool.or_eq_false_iff]
  refine ⟨⟨⟨⟨⟨?_, ?_⟩, ?_⟩, ?_⟩, ?_⟩, ?_⟩ <;>
    (apply beq_eq_false_iff_ne.mpr; intro hc; rw [hc] at h1'; revert h1'; decide)

theorem takeWhile_sat (p : Char → Bool) (l : List Char) :
    ∀ c ∈ l.takeWhile p, p c = true := by
  induction l with
  | nil => intro c hc; simp at hc
  | cons a rest ih =>
    intro c hc
    rw [List.takeWhile_cons] at hc
    by_cases ha : p a = true
    · rw [if_pos ha] at hc
      rcases List.mem_cons.mp hc with rfl | hc
      · exact ha
      · exact ih c hc
    · rw [if_neg ha] at hc
      simp at hc

theorem dropWhile_append_all (p : Char → Bool) (ws m : List Char)
    (h : ∀ c ∈ ws, p c = true) : (ws ++ m).dropWhile p = m.dropWhile p := by
  induction ws with
  | nil => rfl
  | cons a rest ih =>
    rw [List.cons_append, List.dropWhile_cons, if_pos (h a (List.mem_cons_self a rest))]
    exact ih (fun c hc => h c (List.mem_cons_of_mem a hc))

theorem takeWhile_append_all (p : Char → Bool) (ws m : List Char)
    (h : ∀ c ∈ ws, p c = true) : (ws ++ m).takeWhile p = ws ++ m.takeWhile p := by
  induction ws with
  | nil => rfl
  | cons a rest ih =>
    rw [List.cons_append, List.takeWhile_cons, if_pos (h a (List.mem_cons_self a rest)),
      ih (fun c hc => h c (List.mem_cons_of_mem a hc)), List.cons_append]

theorem tailCand_sound (acc l g rest : List Char)
    (h : tailCand acc l = some (g, rest)) :
    ∃ t, g = acc ++ t ∧ l = t ++ rest ∧ tailOk t = true := by
  unfold tailCand at h
  split at h
  next d x y rest' hd =>
    split at h
    next hg =>
      simp only [Option.some.injEq, Prod.mk.injEq] at h
      obtain ⟨hge, hre⟩ := h
      have hd1 : isDigitChar d = true := by
        simp only [Bool.and_eq_true] at hg
        exact hg.1.1
      refine ⟨l.takeWhile isSpaceChar ++ [d, x, y], by rw [← hge]; simp, ?_, ?_⟩
      · conv_lhs => rw [← List.takeWhile_append_dropWhile isSpaceChar l]
        rw [hd, ← hre]
        simp
      · unfold tailOk
        rw [dropWhile_append_all isSpaceChar _ _ (takeWhile_sat isSpaceChar l)]
        have : List.dropWhile isSpaceChar (d :: x :: y :: ([] : List Char)) = [d, x, y] := by
          rw [List.dropWhile_cons, if_neg (by simp [digit_not_space d hd1])]
        rw [show ([d, x, y] : List Char) = d :: x :: y :: [] from rfl, this]
        exact hg
    next => exact absurd h (by simp)
  next => exact absurd h (by simp)

theorem tailCand_complete (acc t post : List Char) (h : tailOk t = true) :
    tailCand acc (t ++ post) = some (acc ++ t, post) := by
  unfold tailOk at h
  split at h
  next d x y hd =>
    have hd1 : isDigitChar d = true := by
      simp only [Bool.and_eq_true] at h
      exact h.1.1
    have hdns : isSpaceChar d = false := digit_not_space d hd1
    obtain ⟨ws, hws, ht⟩ : ∃ ws, (∀ c ∈ ws, isSpaceChar c = true) ∧ t = ws ++ [d, x, y] :=
      ⟨t.takeWhile isSpaceChar, takeWhile_sat isSpaceChar t, by
        conv_lhs => rw [← List.takeWhile_append_dropWhile isSpaceChar t]
        rw [hd]⟩
    subst ht
    have hdrop : ((ws ++ [d, x, y]) ++ post).dropWhile isSpaceChar = d :: x :: y :: post := by
      rw [List.append_assoc, dropWhile_append_all isSpaceChar _ _ hws]
      show List.dropWhile isSpaceChar (d :: x :: y :: post) = d :: x :: y :: post
      rw [List.dropWhile_cons, if_neg (by simp [hdns])]
    have htake : ((ws ++ [d, x, y]) ++ post).takeWhile isSpaceChar = ws := by
      rw [List.append_assoc, takeWhile_append_all isSpaceChar _ _ hws]
      show ws ++ List.takeWhile isSpaceChar (d :: x :: y :: post) = ws
      rw [List.takeWhile_cons, if_neg (by simp [hdns])]
      simp
    unfold tailCand
    simp only [hdrop, htake, if_pos h]
    simp
  next => exact absurd h (by simp)

theorem optCands_sound (acc l g rest : List Char)
    (h : (g, rest) ∈ optCands acc l) :
    ∃ t, g = acc ++ t ∧ l = t ++ rest ∧ afterDigitOk t = true := by
  unfold optCands at h
  rcases l with _ | ⟨c, lrest⟩ <;> dsimp only at h
  all_goals rcases List.mem_append.mp h with h1 | h1
  · simp at h1
  · rcases Option.mem_toList.mp h1 with hcand
    obtain ⟨t', hgt, hlt, htail⟩ := tailCand_sound acc [] g rest hcand
    refine ⟨t', hgt, hlt, ?_⟩
    unfold afterDigitOk
    rw [htail]
    simp
  · by_cases hc : (isLetterChar c || isDigitChar c) = true
    · rw [if_pos hc] at h1
      rcases Option.mem_toList.mp h1 with hcand
      obtain ⟨t', hgt, hlt, htail⟩ := tailCand_sound (acc ++ [c]) lrest g rest hcand
      refine ⟨c :: t', by rw [hgt]; simp, by rw [hlt]; simp, ?_⟩
      simp [afterDigitOk, hc, htail]
    · rw [if_neg hc] at h1
      simp at h1
  · rcases Option.mem_toList.mp h1 with hcand
    obtain ⟨t', hgt, hlt, htail⟩ := tailCand_sound acc (c :: lrest) g rest hcand
    refine ⟨t', hgt, hlt, ?_⟩
    unfold afterDigitOk
    rw [htail]
    simp

theorem optCands_complete (acc t post : List Char) (h : afterDigitOk t = true) :
    (acc ++ t, post) ∈ optCands acc (t ++ post) := by
  unfold afterDigitOk at h
  rcases Bool.or_eq_true_iff.mp h with h1 | h1
  · unfold optCands
    apply List.mem_append.mpr
    right
    rw [tailCand_complete acc t post h1]
    simp
  · rcases t with _ | ⟨c, t'⟩
    · simp at h1
    · rcases Bool.and_eq_true_iff.mp h1 with ⟨hc, htail⟩
      unfold optCands
      apply List.mem_append.mpr
      left
      rw [List.cons_append]
      dsimp only
      rw [if_pos hc, tailCand_complete (acc ++ [c]) t' post htail]
      have heq : acc ++ [c] ++ t' = acc ++ (c :: t') := by simp
      rw [heq]
      simp

theorem digitCands_sound (acc l g rest : List Char)
    (h : (g, rest) ∈ digitCands acc l) :
    ∃ t, g = acc ++ t ∧ l = t ++ rest ∧ afterLettersOk t = true := by
  unfold digitCands at h
  rcases l with _ | ⟨d, lrest⟩ <;> dsimp only at h
  · simp at h
  · by_cases hd : isDigitChar d = true
    · rw [if_pos hd] at h
      obtain ⟨t', hgt, hlt, hok⟩ := optCands_sound (acc ++ [d]) lrest g rest h
      refine ⟨d :: t', by rw [hgt]; simp, by rw [hlt]; simp, ?_⟩
      simp [afterLettersOk, hd, hok]
    · rw [if_neg hd] at h
      simp at h

theorem digitCands_complete (acc t post : List Char) (h : afterLettersOk t = true) :
    (acc ++ t, post) ∈ digitCands acc (t ++ post) := by
  unfold afterLettersOk at h
  rcases t with _ | ⟨d, t'⟩
  · simp at h
  · rcases Bool.and_eq_true_iff.mp h with ⟨hd, hok⟩
    unfold digitCands
    rw [List.cons_append]
    dsimp only
    rw [if_pos hd]
    have := optCands_complete (acc ++ [d]) t' post hok
    have heq : acc ++ [d] ++ t' = acc ++ (d :: t') := by simp
    rw [heq] at this
    exact this

theorem groupCands_sound (l g rest : List Char)
    (h : (g, rest) ∈ groupCands l) :
    l = g ++ rest ∧ coreOk g = true := by
  unfold groupCands at h
  rcases l with _ | ⟨a, lrest⟩ <;> dsimp only at h
  · simp at h
  by_cases ha : isLetterChar a = true
  · rw [if_pos ha] at h
    rcases List.mem_append.mp h with h1 | h1
    · rcases lrest with _ | ⟨b, lrest2⟩ <;> dsimp only at h1
      · simp at h1
      by_cases hb : isLetterChar b = true
      · rw [if_pos hb] at h1
        obtain ⟨t', hgt, hlt, hok⟩ := digitCands_sound [a, b] lrest2 g rest h1
        constructor
        · rw [hgt, hlt]
          simp
        · rw [hgt]
          show coreOk (a :: b :: t') = true
          simp [coreOk, ha, hb, hok]
      · rw [if_neg hb] at h1
        simp at h1
    · obtain ⟨t', hgt, hlt, hok⟩ := digitCands_sound [a] lrest g rest h1
      constructor
      · rw [hgt, hlt]
        simp
      · rw [hgt]
        show coreOk (a :: t') = true
        simp [coreOk, ha, hok]
  · rw [if_neg ha] at h
    simp at h

theorem groupCands_complete (g post : List Char) (h : coreOk g = true) :
    (g, post) ∈ groupCands (g ++ post) := by
  unfold coreOk at h
  rcases g with _ | ⟨a, grest⟩
  · simp at h
  rcases Bool.and_eq_true_iff.mp h with ⟨ha, hrest⟩
  unfold groupCands
  rw [List.cons_append]
  dsimp only
  rw [if_pos ha]
  apply List.mem_append.mpr
  rcases Bool.or_eq_true_iff.mp hrest with h1 | h1
  · right
    have := digitCands_complete [a] grest post h1
    have heq : ([a] : List Char) ++ grest = a :: grest := by simp
    rw [heq] at this
    exact this
  · left
    rcases grest with _ | ⟨b, grest2⟩
    · simp at h1
    rcases Bool.and_eq_true_iff.mp h1 with ⟨hb, hok⟩
    rw [List.cons_append]
    dsimp only
    rw [if_pos hb]
    have := digitCands_complete [a, b] grest2 post hok
    have heq : ([a, b] : List Char) ++ grest2 = a :: b :: grest2 := by simp
    rw [heq] at this
    exact this

theorem coreOk_ne_nil (g : List Char) (h : coreOk g = true) : g ≠ [] := by
  intro hg
  rw [hg] at h
  simp [coreOk] at h

/-! ## Lemmas: the scan of `re.search` finds the leftmost boundary-delimited match -/

theorem tryHere_sound (l g : List Char) (h : tryHere l = some g) :
    ∃ post, l = g ++ post ∧ coreOk g = true ∧ trailOk post = true := by
  unfold tryHere at h
  rcases hf : (groupCands l).find? (fun p => trailOk p.2) with _ | ⟨⟨g', post⟩⟩
  · rw [hf] at h
    simp at h
  · rw [hf] at h
    simp only [Option.map] at h
    rw [Option.some.injEq] at h
    obtain ⟨hl, hcore⟩ := groupCands_sound l g' post (List.mem_of_find?_eq_some hf)
    have htrail : trailOk post = true := by simpa using List.find?_some hf
    exact ⟨post, by rw [← h]; exact hl, by rw [← h]; exact hcore, htrail⟩

theorem tryHere_complete (l g post : List Char) (hl : l = g ++ post)
    (hcore : coreOk g = true) (htrail : trailOk post = true) :
    tryHere l ≠ none := by
  intro hnone
  unfold tryHere at hnone
  rcases hf : (groupCands l).find? (fun p => trailOk p.2) with _ | ⟨p⟩
  · rw [List.find?_eq_none] at hf
    apply hf (g, post) (hl ▸ groupCands_complete g post hcore)
    simpa using htrail
  · rw [hf] at hnone
    simp at hnone

/-- The boundary characters seen from a position: the last character of the
part already scanned, or the character before the scan when that part is
empty. -/
def charBefore (prev : Option Char) (mid : List Char) : Option Char :=
  match mid.getLast? with
  | some c => some c
  | none => prev

/-- A boundary-delimited occurrence relative to the scan state: like
`MatchAt`, with the character preceding the scanned suffix supplied
explicitly. -/
def LMatch (prev : Option Char) (l : List Char) (i : Nat) (g : List Char) : Prop :=
  ∃ mid post, l = mid ++ g ++ post ∧ mid.length = i ∧ coreOk g = true ∧
    (match charBefore prev mid with | some c => isWordChar c = false | none => True) ∧
    trailOk post = true

theorem trailOk_iff (post : List Char) :
    trailOk post = true ↔
      (match post.head? with | some c => isWordChar c = false | none => True) := by
  cases post with
  | nil => exact ⟨fun _ => trivial, fun _ => rfl⟩
  | cons c rest => simp [trailOk]

theorem headOk_iff (prev : Option Char) :
    headOk prev = true ↔
      (match prev with | some c => isWordChar c = false | none => True) := by
  cases prev with
  | none => simp [headOk]
  | some c => simp [headOk]

theorem lmatch_zero (prev : Option Char) (l g : List Char) :
    LMatch prev l 0 g ↔
      (headOk prev = true ∧ ∃ post, l = g ++ post ∧ coreOk g = true ∧
        trailOk post = true) := by
  constructor
  · rintro ⟨mid, post, heq, hlen, hcore, hbound, htrail⟩
    rcases List.length_eq_zero.mp hlen with rfl
    refine ⟨?_, post, by simpa using heq, hcore, htrail⟩
    rw [headOk_iff]
    simpa [charBefore] using hbound
  · rintro ⟨hhead, post, heq, hcore, htrail⟩
    refine ⟨[], post, by simpa using heq, rfl, hcore, ?_, htrail⟩
    simpa [charBefore] using (headOk_iff prev).mp hhead

theorem charBefore_cons (prev : Option Char) (c : Char) (mid : List Char) :
    charBefore prev (c :: mid) = charBefore (some c) mid := by
  cases mid with
  | nil => rfl
  | cons d rest =>
    unfold charBefore
    rw [List.getLast?_cons_cons]
    rcases hg : (d :: rest).getLast? with _ | ⟨e⟩
    · exact absurd (List.getLast?_eq_none_iff.mp hg) (by simp)
    · rfl

theorem lmatch_succ (prev : Option Char) (c : Char) (rest : List Char) (j : Nat)
    (g : List Char) :
    LMatch prev (c :: rest) (j + 1) g ↔ LMatch (some c) rest j g := by
  constructor
  · rintro ⟨mid, post, heq, hlen, hcore, hbound, htrail⟩
    rcases mid with _ | ⟨c', mid'⟩
    · simp at hlen
    · simp only [List.cons_append, List.cons.injEq] at heq
      obtain ⟨rfl, heq'⟩ := heq
      refine ⟨mid', post, heq', by simpa using hlen, hcore, ?_, htrail⟩
      rw [← charBefore_cons prev c mid']
      exact hbound
  · rintro ⟨mid, post, heq, hlen, hcore, hbound, htrail⟩
    refine ⟨c :: mid, post, by rw [heq]; simp, by simpa using hlen, hcore, ?_, htrail⟩
    rw [charBefore_cons prev c mid]
    exact hbound

theorem lmatch_nil (prev : Option Char) (j : Nat) (g : List Char) :
    ¬ LMatch prev [] j g := by
  rintro ⟨mid, post, heq, _, hcore, _, _⟩
  apply coreOk_ne_nil g hcore
  have hnil := heq.symm
  simp only [List.append_eq_nil] at hnil
  tauto

theorem searchAux_cons (prev : Option Char) (c : Char) (rest : List Char) :
    searchAux prev (c :: rest) =
      match (if headOk prev then tryHere (c :: rest) else none) with
      | some g => some g
      | none => searchAux (some c) rest := rfl

theorem searchAux_correct (l : List Char) :
    ∀ prev : Option Char,
      (∀ g, searchAux prev l = some g →
        ∃ i, LMatch prev l i g ∧ ∀ j g', LMatch prev l j g' → i ≤ j) ∧
      (searchAux prev l = none → ∀ j g', ¬ LMatch prev l j g') := by
  induction l with
  | nil =>
    intro prev
    constructor
    · intro g hg
      simp [searchAux] at hg
    · intro _ j g'
      exact lmatch_nil prev j g'
  | cons c rest ih =>
    intro prev
    rcases hscrut : (if headOk prev then tryHere (c :: rest) else none) with _ | ⟨g0⟩
    · have hstep : searchAux prev (c :: rest) = searchAux (some c) rest := by
        rw [searchAux_cons, hscrut]
      have hnot0 : ∀ g', ¬ LMatch prev (c :: rest) 0 g' := by
        intro g' hm
        rcases (lmatch_zero prev (c :: rest) g').mp hm with ⟨hhead, post, heq, hcore, htrail⟩
        by_cases hh : headOk prev = true
        · rw [if_pos hh] at hscrut
          exact tryHere_complete (c :: rest) g' post heq hcore htrail hscrut
        · exact hh hhead
      constructor
      · intro g hg
        rw [hstep] at hg
        obtain ⟨i, hm, hmin⟩ := ((ih (some c)).1) g hg
        refine ⟨i + 1, (lmatch_succ prev c rest i g).mpr hm, ?_⟩
        intro j g' hj
        rcases j with _ | j'
        · exact absurd hj (hnot0 g')
        · have := hmin j' g' ((lmatch_succ prev c rest j' g').mp hj)
          omega
      · intro hg j g' hj
        rw [hstep] at hg
        rcases j with _ | j'
        · exact hnot0 g' hj
        · exact ((ih (some c)).2) hg j' g' ((lmatch_succ prev c rest j' g').mp hj)
    · have hstep : searchAux prev (c :: rest) = some g0 := by
        rw [searchAux_cons, hscrut]
      have hhead : headOk prev = true := by
        by_cases hh : headOk prev = true
        · exact hh
        · rw [if_neg hh] at hscrut
          exact absurd hscrut (by simp)
      have htry : tryHere (c :: rest) = some g0 := by
        rw [if_pos hhead] at hscrut
        exact hscrut
      constructor
      · intro g hg
        rw [hstep] at hg
        rw [Option.some.inj hg] at htry
        obtain ⟨post, heq, hcore, htrail⟩ := tryHere_sound (c :: rest) g htry
        refine ⟨0, (lmatch_zero prev (c :: rest) g).mpr ⟨hhead, post, heq, hcore, htrail⟩, ?_⟩
        intro j g' _
        exact Nat.zero_le j
      · intro hg
        rw [hstep] at hg
        exact absurd hg (by simp)

/-- The boundary seen from the string start. -/
theorem charBefore_none (mid : List Char) : charBefore none mid = mid.getLast? := by
  unfold charBefore
  rcases hg : mid.getLast? with _ | ⟨e⟩
  · rfl
  · rfl

/-- `LMatch` with no preceding character is exactly `MatchAt`. -/
theorem lmatch_none_iff (l : List Char) (i : Nat) (g : List Char) :
    LMatch none l i g ↔ MatchAt l i g := by
  unfold LMatch MatchAt
  constructor
  · rintro ⟨mid, post, heq, hlen, hcore, hbound, htrail⟩
    rw [charBefore_none] at hbound
    exact ⟨mid, post, heq, hlen, hcore, hbound, (trailOk_iff post).mp htrail⟩
  · rintro ⟨pre, post, heq, hlen, hcore, hbound, htrail⟩
    refine ⟨pre, post, heq, hlen, hcore, ?_, (trailOk_iff post).mpr htrail⟩
    rw [charBefore_none]
    exact hbound

/-- Full characterization of `extract_postcode`: either the address has no
boundary-delimited pattern occurrence and the result is empty, or the result
is the uppercased group of a leftmost occurrence. -/
theorem extract_postcode_characterization (addr : String) :
    (extract_postcode addr = "" ∧ ∀ i g, ¬ MatchAt addr.toList i g) ∨
    (∃ i g, MatchAt addr.toList i g ∧
      (∀ j g', MatchAt addr.toList j g' → i ≤ j) ∧
      extract_postcode addr = String.mk (g.map Char.toUpper) ∧
      extract_postcode addr ≠ "") := by
  unfold extract_postcode
  rcases hs : searchAux none addr.toList with _ | ⟨g⟩
  · left
    constructor
    · rfl
    · intro i g hm
      exact ((searchAux_correct addr.toList none).2 hs) i g
        ((lmatch_none_iff addr.toList i g).mpr hm)
  · right
    obtain ⟨i, hm, hmin⟩ := (searchAux_correct addr.toList none).1 g hs
    have hmO := (lmatch_none_iff addr.toList i g).mp hm
    refine ⟨i, g, hmO, ?_, rfl, ?_⟩
    · intro j g' hj
      exact hmin j g' ((lmatch_none_iff addr.toList j g').mpr hj)
    · intro hemp
      apply coreOk_ne_nil g
      · obtain ⟨_, _, _, _, hcore, _, _⟩ := hmO
        exact hcore
      · have hemp' : String.mk (g.map Char.toUpper) = "" := hemp
        have hdata : g.map Char.toUpper = ("" : String).data := congrArg String.data hemp'
        exact List.map_eq_nil_iff.mp hdata

/-! ## The extraction as the C4 claim words it

The definitions below are modelled from the claim sentence, not from the
source: the pattern has a mandatory single space between the two halves and
no word-boundary condition, and the first (leftmost) match wins.  They exist
to compare the claimed behaviour with the implemented one. -/

/-- Claim-side tail `<space><sector digit><two letters>` with the mandatory
single space. -/
def tailCandClaim (acc : List Char) : List Char → Option (List Char × List Char)
  | ' ' :: d :: x :: y :: rest =>
    if isDigitChar d && isLetterChar x && isLetterChar y then
      some (acc ++ [' ', d, x, y], rest)
    else none
  | _ => none

/-- Claim-side alternatives for the optional unit character. -/
def optCandsClaim (acc : List Char) (l : List Char) : List (List Char × List Char) :=
  (match l with
   | c :: rest =>
     if isLetterChar c || isDigitChar c then (tailCandClaim (acc ++ [c]) rest).toList else []
   | [] => []) ++ (tailCandClaim acc l).toList

/-- Claim-side alternatives after the district digit. -/
def digitCandsClaim (acc : List Char) (l : List Char) : List (List Char × List Char) :=
  match l with
  | d :: rest => if isDigitChar d then optCandsClaim (acc ++ [d]) rest else []
  | [] => []

/-- Claim-side alternatives for the whole claimed pattern. -/
def groupCandsClaim (l : List Char) : List (List Char × List Char) :=
  match l with
  | a :: rest =>
    if isLetterChar a then
      (match rest with
       | b :: rest2 => if isLetterChar b then digitCandsClaim [a, b] rest2 else []
       | [] => []) ++ digitCandsClaim [a] rest
    else []
  | [] => []

/-- Claim-side scan: the first position with a claimed-pattern instance
wins, with no boundary conditions. -/
def searchClaim : List Char → Option (List Char)
  | [] => none
  | c :: rest =>
    match groupCandsClaim (c :: rest) with
    | (g, _) :: _ => some g
    | [] => searchClaim rest

/-- The postcode extraction as the claim describes it. -/
def extract_postcode_claim (addr : String) : String :=
  match searchClaim addr.toList with
  | some g => String.mk (g.map Char.toUpper)
  | none => ""

/-! ## Lemmas about the sort order -/

theorem charListLt_irrefl (l : List Char) : charListLt l l = false := by
  induction l with
  | nil => rfl
  | cons a rest ih =>
    unfold charListLt
    rw [if_neg (lt_irrefl a), if_neg (lt_irrefl a)]
    exact ih

theorem charListLt_trans (l1 l2 l3 : List Char) (h12 : charListLt l1 l2 = true)
    (h23 : charListLt l2 l3 = true) : charListLt l1 l3 = true := by
  induction l1 generalizing l2 l3 with
  | nil =>
    rcases l3 with _ | ⟨c, r3⟩
    · rcases l2 with _ | ⟨b, r2⟩
      · exact absurd h12 (by simp [charListLt])
      · exact absurd h23 (by simp [charListLt])
    · rfl
  | cons a r1 ih =>
    rcases l2 with _ | ⟨b, r2⟩
    · exact absurd h12 (by simp [charListLt])
    rcases l3 with _ | ⟨c, r3⟩
    · exact absurd h23 (by simp [charListLt])
    unfold charListLt at h12 h23 ⊢
    rcases lt_trichotomy a b with hab | rfl | hab
    · rcases lt_trichotomy b c with hbc | rfl | hbc
      · rw [if_pos (lt_trans hab hbc)]
      · rw [if_pos hab]
      · rw [if_neg (lt_asymm hbc), if_pos hbc] at h23
        exact absurd h23 (by simp)
    · rw [if_neg (lt_irrefl a), if_neg (lt_irrefl a)] at h12
      rcases lt_trichotomy a c with hac | rfl | hac
      · rw [if_pos hac]
      · rw [if_neg (lt_irrefl a), if_neg (lt_irrefl a)] at h23
        rw [if_neg (lt_irrefl a), if_neg (lt_irrefl a)]
        exact ih r2 r3 h12 h23
      · rw [if_neg (lt_asymm hac), if_pos hac] at h23
        exact absurd h23 (by simp)
    · rw [if_neg (lt_asymm hab), if_pos hab] at h12
      exact absurd h12 (by simp)

theorem charListLt_trichot (l1 l2 : List Char) :
    charListLt l1 l2 = true ∨ l1 = l2 ∨ charListLt l2 l1 = true := by
  induction l1 generalizing l2 with
  | nil =>
    rcases l2 with _ | ⟨b, r2⟩
    · right; left; rfl
    · left; rfl
  | cons a r1 ih =>
    rcases l2 with _ | ⟨b, r2⟩
    · right; right; rfl
    · rcases lt_trichotomy a b with hab | rfl | hab
      · left
        unfold charListLt
        rw [if_pos hab]
      · rcases ih r2 with h | h | h
        · left
          unfold charListLt
          rw [if_neg (lt_irrefl a), if_neg (lt_irrefl a)]
          exact h
        · right; left
          rw [h]
        · right; right
          unfold charListLt
          rw [if_neg (lt_irrefl a), if_neg (lt_irrefl a)]
          exact h
      · right; right
        unfold charListLt
        rw [if_pos hab]

theorem string_eq_of_toList (a b : String) (h : a.toList = b.toList) : a = b := by
  cases a
  cases b
  exact congrArg String.mk h

theorem pyOrEmpty_eq (s : String) : pyOrEmpty s = s := by
  unfold pyOrEmpty
  by_cases h : (s == "") = true
  · rw [if_pos h]
    exact (by simpa using h : s = "").symm
  · rw [if_neg h]

theorem keyLe_eq (r s : Location) :
    keyLe r s = (pyStrLt r.postcode s.postcode ||
      (r.postcode == s.postcode &&
        (pyStrLt r.name s.name || r.name == s.name))) := by
  unfold keyLe
  simp only [pyOrEmpty_eq]

theorem keyLe_total (r s : Location) : keyLe r s = true ∨ keyLe s r = true := by
  rw [keyLe_eq, keyLe_eq]
  rcases charListLt_trichot r.postcode.toList s.postcode.toList with h | h | h
  · exact Or.inl (Bool.or_eq_true_iff.mpr (Or.inl h))
  · have hpc : r.postcode = s.postcode := string_eq_of_toList _ _ h
    rcases charListLt_trichot r.name.toList s.name.toList with hn | hn | hn
    · exact Or.inl (Bool.or_eq_true_iff.mpr (Or.inr (Bool.and_eq_true_iff.mpr
        ⟨by simp [hpc], Bool.or_eq_true_iff.mpr (Or.inl hn)⟩)))
    · have hne : r.name = s.name := string_eq_of_toList _ _ hn
      exact Or.inl (Bool.or_eq_true_iff.mpr (Or.inr (Bool.and_eq_true_iff.mpr
        ⟨by simp [hpc], Bool.or_eq_true_iff.mpr (Or.inr (by simp [hne]))⟩)))
    · exact Or.inr (Bool.or_eq_true_iff.mpr (Or.inr (Bool.and_eq_true_iff.mpr
        ⟨by simp [hpc], Bool.or_eq_true_iff.mpr (Or.inl hn)⟩)))
  · exact Or.inr (Bool.or_eq_true_iff.mpr (Or.inl h))

theorem keyLe_trans (a b c : Location) (h1 : keyLe a b = true) (h2 : keyLe b c = true) :
    keyLe a c = true := by
  rw [keyLe_eq] at h1 h2 ⊢
  rcases Bool.or_eq_true_iff.mp h1 with hlt1 | heq1
  · rcases Bool.or_eq_true_iff.mp h2 with hlt2 | heq2
    · exact Bool.or_eq_true_iff.mpr (Or.inl (charListLt_trans _ _ _ hlt1 hlt2))
    · rcases Bool.and_eq_true_iff.mp heq2 with ⟨hpe, _⟩
      have hpe' : b.postcode = c.postcode := by simpa using hpe
      apply Bool.or_eq_true_iff.mpr
      left
      show charListLt a.postcode.toList c.postcode.toList = true
      rw [← hpe']
      exact hlt1
  · rcases Bool.and_eq_true_iff.mp heq1 with ⟨hpe, hname1⟩
    have hpe' : a.postcode = b.postcode := by simpa using hpe
    rcases Bool.or_eq_true_iff.mp h2 with hlt2 | heq2
    · apply Bool.or_eq_true_iff.mpr
      left
      show charListLt a.postcode.toList c.postcode.toList = true
      rw [hpe']
      exact hlt2
    · rcases Bool.and_eq_true_iff.mp heq2 with ⟨hpe2, hname2⟩
      have hpe2' : b.postcode = c.postcode := by simpa using hpe2
      apply Bool.or_eq_true_iff.mpr
      right
      apply Bool.and_eq_true_iff.mpr
      refine ⟨by simp [hpe'.trans hpe2'], ?_⟩
      rcases Bool.or_eq_true_iff.mp hname1 with hn1 | hn1
      · rcases Bool.or_eq_true_iff.mp hname2 with hn2 | hn2
        · exact Bool.or_eq_true_iff.mpr (Or.inl (charListLt_trans _ _ _ hn1 hn2))
        · have hne : b.name = c.name := by simpa using hn2
          apply Bool.or_eq_true_iff.mpr
          left
          show charListLt a.name.toList c.name.toList = true
          rw [← hne]
          exact hn1
      · have hne : a.name = b.name := by simpa using hn1
        rcases Bool.or_eq_true_iff.mp hname2 with hn2 | hn2
        · apply Bool.or_eq_true_iff.mpr
          left
          show charListLt a.name.toList c.name.toList = true
          rw [hne]
          exact hn2
        · have hne2 : b.name = c.name := by simpa using hn2
          exact Bool.or_eq_true_iff.mpr (Or.inr (by simp [hne.trans hne2]))

instance : IsTotal Location keyRel :=
  ⟨fun r s => keyLe_total r s⟩

instance : IsTrans Location keyRel :=
  ⟨fun a b c h1 h2 => keyLe_trans a b c h1 h2⟩

/-! ## Lemmas about the per-record pipeline -/

theorem processItem_obj (fields : List (String × JVal)) :
    processItem (JVal.obj fields) =
      (if ukAdmission (extract_postcode (itemAddress fields)) (to_float (itemLatS fields))
          (to_float (itemLonS fields)) then
        if extract_postcode (itemAddress fields) == "" && denyHit (itemAddress fields) then
          none
        else
          some ⟨"alma",
            stable_id (itemTitle fields) (extract_postcode (itemAddress fields))
              (itemLatS fields) (itemLonS fields),
            itemTitle fields, extract_postcode (itemAddress fields), itemAddress fields,
            itemLatS fields, itemLonS fields,
            pick_first fields ["website", "url", "link"],
            pick_first fields ["phone", "tel", "telephone"]⟩
      else none) := rfl

theorem processItem_not_obj (v : JVal) (h : ∀ fields, v ≠ JVal.obj fields) :
    processItem v = none := by
  cases v with
  | obj fields => exact absurd rfl (h fields)
  | null => rfl
  | str s => rfl
  | num m e => rfl
  | bool b => rfl
  | arr elems => rfl

theorem processItem_some_inv (v : JVal) (loc : Location)
    (h : processItem v = some loc) :
    ∃ fields, v = JVal.obj fields ∧
      loc.source = "alma" ∧
      loc.name = itemTitle fields ∧
      loc.streetaddress = itemAddress fields ∧
      loc.postcode = extract_postcode (itemAddress fields) ∧
      loc.loc_lat = itemLatS fields ∧
      loc.loc_long = itemLonS fields ∧
      loc.website = pick_first fields ["website", "url", "link"] ∧
      loc.phone = pick_first fields ["phone", "tel", "telephone"] ∧
      loc.source_ids = stable_id loc.name loc.postcode loc.loc_lat loc.loc_long := by
  cases v with
  | obj fields =>
    rw [processItem_obj fields] at h
    by_cases hadmit : ukAdmission (extract_postcode (itemAddress fields))
        (to_float (itemLatS fields)) (to_float (itemLonS fields)) = true
    · rw [if_pos hadmit] at h
      by_cases hdeny : (extract_postcode (itemAddress fields) == "" &&
          denyHit (itemAddress fields)) = true
      · rw [if_pos hdeny] at h
        exact absurd h (by simp)
      · rw [if_neg hdeny] at h
        rcases Option.some.inj h with rfl
        exact ⟨fields, rfl, rfl, rfl, rfl, rfl, rfl, rfl, rfl, rfl, rfl⟩
    · rw [if_neg hadmit] at h
      exact absurd h (by simp)
  | null => exact absurd h (by simp [processItem])
  | str s => exact absurd h (by simp [processItem])
  | num m e => exact absurd h (by simp [processItem])
  | bool b => exact absurd h (by simp [processItem])
  | arr elems => exact absurd h (by simp [processItem])

/-- Every row of the deduplicated output was produced by `processItem` from
some input object. -/
theorem parse_dataset_mem_inv (data : List JVal) (loc : Location)
    (h : loc ∈ parse_dataset data) :
    ∃ v ∈ data, processItem v = some loc := by
  unfold parse_dataset at h
  exact List.mem_filterMap.mp (dedup_subset _ loc h)

/-! ## The claims -/

/-- Claim C4, counterexample: the claim states that extraction matches the
postcode pattern with a space between the two halves; on the address
`"SW1A1AA"` (no space) the claimed extraction yields the empty string while
the implemented extraction returns `"SW1A1AA"`. -/
theorem claim_C4_counterexample :
    extract_postcode "SW1A1AA" = "SW1A1AA" ∧
      extract_postcode_claim "SW1A1AA" = "" ∧
      extract_postcode "SW1A1AA" ≠ extract_postcode_claim "SW1A1AA" := by
  refine ⟨by decide, by decide, by decide⟩

/-- Claim C4 (amended): postcode extraction returns the uppercased first
(leftmost) match of the case-insensitive pattern `<area letters 1-2>
<district digit><optional unit letter or digit><optional whitespace run>
<sector digit><two letters>`, where the match must not be adjacent to a word
character on either side (the word boundaries of the compiled regex), and
the empty string when no such match exists. -/
theorem claim_C4 (addr : String) :
    (extract_postcode addr = "" ∧ ∀ i g, ¬ MatchAt addr.toList i g) ∨
    (∃ i g, MatchAt addr.toList i g ∧
      (∀ j g', MatchAt addr.toList j g' → i ≤ j) ∧
      extract_postcode addr = String.mk (g.map Char.toUpper) ∧
      extract_postcode addr ≠ "") :=
  extract_postcode_characterization addr

/-- Witness for C4 at a concrete address with a match. -/
theorem claim_C4_witness :
    extract_postcode "1 High St, London SW1A 1AA" = "SW1A 1AA" ∧
      ∃ i g, MatchAt "1 High St, London SW1A 1AA".toList i g := by
  rcases claim_C4 "1 High St, London SW1A 1AA" with ⟨hemp, _⟩ | ⟨i, g, hm, _, _, _⟩
  · exact absurd hemp (by decide)
  · exact ⟨by decide, i, g, hm⟩

/-- Claim C5: the writer emits the exact header row
`source,source_ids,name,postcode,streetaddress,loc_lat,loc_long,website,phone`
followed by one CSV record per deduplicated row, in ascending order of the
`(postcode, name)` key under ordinal string comparison (`keyRel`). -/
theorem claim_C5 (rows : List Location) :
    ∃ sorted : List Location, sorted.Perm rows ∧ sorted.length = rows.length ∧
      List.Sorted keyRel sorted ∧
      write_csv rows =
        "source,source_ids,name,postcode,streetaddress,loc_lat,loc_long,website,phone\r\n" ++
          String.join (sorted.map (fun r => csvLine (rowFields r))) := by
  refine ⟨List.insertionSort keyRel rows, List.perm_insertionSort keyRel rows,
    (List.perm_insertionSort keyRel rows).length_eq, List.sorted_insertionSort keyRel rows, ?_⟩
  have hheader : csvLine fieldNames =
      "source,source_ids,name,postcode,streetaddress,loc_lat,loc_long,website,phone\r\n" := by
    decide
  unfold write_csv
  rw [hheader]

/-- Claim C6: with the input file absent the run terminates with a non-zero
status, a diagnostic naming the missing path, and no output written; with an
input that exists and parses it writes the CSV, prints the summary line and
exits with status zero. -/
theorem claim_C6 :
    (mainFS none).exitCode ≠ 0 ∧
    (mainFS none).written = none ∧
    (mainFS none).errMsg = some missingMsg ∧
    containsSub LOCATIONS_JSON.toList missingMsg.toList = true ∧
    ∀ data : List JVal,
      (mainFS (some data)).exitCode = 0 ∧
      (mainFS (some data)).written = some (OUT_PATH, write_csv (parse_dataset data)) ∧
      (mainFS (some data)).stdoutLine = some (summaryLine (parse_dataset data)) := by
  refine ⟨by decide, rfl, rfl, by decide, ?_⟩
  intro data
  exact ⟨rfl, rfl, rfl⟩

/-- Claim C7: the pipeline output is a deterministic function of the parsed
input array, so two runs on identical input produce byte-identical CSV
text. -/
theorem claim_C7 (d1 d2 : List JVal) (h : d1 = d2) :
    write_csv (parse_dataset d1) = write_csv (parse_dataset d2) := by
  rw [h]

/-- Witness for C7 at a concrete input. -/
theorem claim_C7_witness :
    write_csv (parse_dataset [JVal.str "x"]) = write_csv (parse_dataset [JVal.str "x"]) :=
  claim_C7 [JVal.str "x"] [JVal.str "x"] rfl

theorem pick_first_cons (fields : List (String × JVal)) (k : String) (ks : List String) :
    pick_first fields (k :: ks) =
      (match jLookup fields k with
       | none => pick_first fields ks
       | some JVal.null => pick_first fields ks
       | some v =>
         let v' := pyStrip (pyStr v)
         if v' == "" then pick_first fields ks else v') := rfl

/-- A record whose address yields a postcode is always emitted. -/
theorem postcode_retained (fields : List (String × JVal))
    (hpc : extract_postcode (itemAddress fields) ≠ "") :
    (processItem (JVal.obj fields)).isSome = true := by
  rw [processItem_obj]
  have hbeq : (extract_postcode (itemAddress fields) == "") = false :=
    beq_eq_false_iff_ne.mpr hpc
  have hadm : ukAdmission (extract_postcode (itemAddress fields))
      (to_float (itemLatS fields)) (to_float (itemLonS fields)) = true := by
    unfold ukAdmission
    rw [hbeq]
    simp
  rw [if_pos hadm, if_neg (by simp [hbeq])]
  rfl

/-- Claim C1: an object record passes the UK admission test exactly when a
non-empty postcode was extracted from its normalized address or both
coordinate strings parse and the parsed values lie in the rectangle
`[49.8, 60.9] × [-8.5, 2.5]`; a record failing the test is skipped, and one
with a postcode is retained regardless of coordinates. -/
theorem claim_C1 (fields : List (String × JVal)) :
    (ukAdmission (extract_postcode (itemAddress fields)) (to_float (itemLatS fields))
        (to_float (itemLonS fields)) = true ↔
      (extract_postcode (itemAddress fields) ≠ "" ∨
        ∃ la lo : Dec, to_float (itemLatS fields) = some la ∧
          to_float (itemLonS fields) = some lo ∧
          49.8 ≤ la.toRat ∧ la.toRat ≤ 60.9 ∧ -8.5 ≤ lo.toRat ∧ lo.toRat ≤ 2.5)) ∧
    (ukAdmission (extract_postcode (itemAddress fields)) (to_float (itemLatS fields))
        (to_float (itemLonS fields)) = false →
      processItem (JVal.obj fields) = none) ∧
    (extract_postcode (itemAddress fields) ≠ "" →
      (processItem (JVal.obj fields)).isSome = true) := by
  have hbb := in_uk_bbox_iff (to_float (itemLatS fields)) (to_float (itemLonS fields))
  refine ⟨⟨?_, ?_⟩, ?_, postcode_retained fields⟩
  · intro h
    by_cases hpc : extract_postcode (itemAddress fields) = ""
    · right
      have hbox : in_uk_bbox (to_float (itemLatS fields)) (to_float (itemLonS fields)) = true := by
        unfold ukAdmission at h
        rw [hpc] at h
        simpa using h
      exact hbb.mp hbox
    · left
      exact hpc
  · intro h
    unfold ukAdmission
    rcases h with hpc | hbox
    · rw [beq_eq_false_iff_ne.mpr hpc]
      simp
    · rw [hbb.mpr hbox]
      simp
  · intro h
    rw [processItem_obj, if_neg (by simp [h])]

/-- Witness for C1: a record with a postcode is retained. -/
theorem claim_C1_witness :
    (processItem (JVal.obj [("title", JVal.str "Clinic One"),
      ("map", JVal.obj [("address", JVal.str "1 High St, London SW1A 1AA"),
        ("lat", JVal.str "51.5"), ("lng", JVal.str "-0.1")])])).isSome = true :=
  (claim_C1 _).2.2 (by decide)

/-- Claim C2: a record admitted without a postcode (via the bounding box
only) whose lowercased address holds a denylisted country substring is
rejected and yields no row; a record with a postcode is emitted and never
subject to the denylist. -/
theorem claim_C2 (fields : List (String × JVal)) :
    (extract_postcode (itemAddress fields) = "" →
      in_uk_bbox (to_float (itemLatS fields)) (to_float (itemLonS fields)) = true →
      denyHit (itemAddress fields) = true →
      processItem (JVal.obj fields) = none) ∧
    (extract_postcode (itemAddress fields) ≠ "" →
      (processItem (JVal.obj fields)).isSome = true) := by
  refine ⟨?_, postcode_retained fields⟩
  intro hpc hbox hdeny
  rw [processItem_obj]
  have hbeq : (extract_postcode (itemAddress fields) == "") = true := by simp [hpc]
  have hadm : ukAdmission (extract_postcode (itemAddress fields))
      (to_float (itemLatS fields)) (to_float (itemLonS fields)) = true := by
    unfold ukAdmission
    rw [hbox]
    simp
  rw [if_pos hadm, if_pos (by rw [hbeq, hdeny]; rfl)]

/-- Witness for C2: a bbox-admitted record naming the USA is rejected. -/
theorem claim_C2_witness :
    processItem (JVal.obj [("title", JVal.str "Trick"),
      ("map", JVal.obj [("address", JVal.str "Somewhere in USA"),
        ("lat", JVal.str "55.0"), ("lng", JVal.str "-2.0")])]) = none :=
  (claim_C2 _).1 (by decide) (by decide) (by decide)

/-- Claim C9: the `website` field of an emitted row is `pick_first` over the
keys `website`, `url`, `link` and the `phone` field is `pick_first` over
`phone`, `tel`, `telephone`; `pick_first` returns the stripped
stringification of the first key whose value is not `None` and strips to a
non-empty string, skipping keys that are absent, `None`, or empty after
stripping — so with both `website` and `url` present and non-empty the
`website` value is chosen. -/
theorem claim_C9 (fields : List (String × JVal)) :
    (∀ loc, processItem (JVal.obj fields) = some loc →
      loc.website = pick_first fields ["website", "url", "link"] ∧
      loc.phone = pick_first fields ["phone", "tel", "telephone"]) ∧
    (∀ (k : String) (ks : List String) (v : JVal), jLookup fields k = some v →
      v ≠ JVal.null → pyStrip (pyStr v) ≠ "" →
      pick_first fields (k :: ks) = pyStrip (pyStr v)) ∧
    (∀ (k : String) (ks : List String),
      (jLookup fields k = none ∨ jLookup fields k = some JVal.null ∨
        (∃ v, jLookup fields k = some v ∧ pyStrip (pyStr v) = "")) →
      pick_first fields (k :: ks) = pick_first fields ks) := by
  refine ⟨?_, ?_, ?_⟩
  · intro loc h
    obtain ⟨fields', heq, _, _, _, _, _, _, hweb, hphone, _⟩ :=
      processItem_some_inv (JVal.obj fields) loc h
    rcases JVal.obj.inj heq with rfl
    exact ⟨hweb, hphone⟩
  · intro k ks v hlook hnull hne
    rw [pick_first_cons, hlook]
    cases v with
    | null => exact absurd rfl hnull
    | str s =>
      dsimp only
      rw [if_neg (by simp [beq_eq_false_iff_ne.mpr hne])]
    | num m e =>
      dsimp only
      rw [if_neg (by simp [beq_eq_false_iff_ne.mpr hne])]
    | bool b =>
      dsimp only
      rw [if_neg (by simp [beq_eq_false_iff_ne.mpr hne])]
    | arr elems =>
      dsimp only
      rw [if_neg (by simp [beq_eq_false_iff_ne.mpr hne])]
    | obj fs =>
      dsimp only
      rw [if_neg (by simp [beq_eq_false_iff_ne.mpr hne])]
  · intro k ks h
    rw [pick_first_cons]
    rcases h with h | h | ⟨v, hlook, hempty⟩
    · rw [h]
    · rw [h]
    · rw [hlook]
      cases v with
      | null => rfl
      | str s =>
        dsimp only
        rw [if_pos (by simp [hempty])]
      | num m e =>
        dsimp only
        rw [if_pos (by simp [hempty])]
      | bool b =>
        dsimp only
        rw [if_pos (by simp [hempty])]
      | arr elems =>
        dsimp only
        rw [if_pos (by simp [hempty])]
      | obj fs =>
        dsimp only
        rw [if_pos (by simp [hempty])]

/-- Witness for C9: with both `website` and `url` present and non-empty,
the `website` value is chosen. -/
theorem claim_C9_witness :
    pick_first [("url", JVal.str "http://u.example"),
        ("website", JVal.str "http://w.example")]
      ["website", "url", "link"] = "http://w.example" :=
  (claim_C9 _).2.1 "website" ["url", "link"] (JVal.str "http://w.example")
    rfl (fun h => JVal.noConfusion h) (by decide)

/-- Claim C8: coordinate parsing never fails the run: the empty string, a
whitespace-only string, and an absent or `None` value all parse to no value;
an unparsed coordinate is treated as outside the bounding box; a non-object
array element is skipped; a wrongly-typed `map` degrades to the empty
object. -/
theorem claim_C8 :
    to_float "" = none ∧
    (∀ s : String, (∀ c ∈ s.toList, isSpaceChar c = true) → to_float s = none) ∧
    (∀ m : List (String × JVal),
      (jLookup m "lat" = none ∨ jLookup m "lat" = some JVal.null) →
      to_float (pyStrip (getStrOr m "lat")) = none) ∧
    (∀ v : JVal, (∀ fields, v ≠ JVal.obj fields) → processItem v = none) ∧
    (∀ (fields : List (String × JVal)) (v : JVal), jLookup fields "map" = some v →
      (∀ fs, v ≠ JVal.obj fs) → itemMap fields = []) ∧
    (∀ lon, in_uk_bbox none lon = false) ∧
    (∀ lat, in_uk_bbox lat none = false) := by
  refine ⟨rfl, ?_, ?_, processItem_not_obj, ?_, fun lon => rfl, ?_⟩
  · intro s hs
    have hstrip : stripChars s.toList = [] := by
      unfold stripChars
      rw [List.dropWhile_eq_nil_iff.mpr (fun x hx => hs x hx)]
      rfl
    unfold to_float pyStrip
    rw [hstrip]
    rfl
  · intro m h
    have hstr : getStrOr m "lat" = "" := by
      unfold getStrOr pyGet
      rcases h with h | h
      · rw [h]
        rfl
      · rw [h]
        rfl
    rw [hstr]
    rfl
  · intro fields v hlook hnobj
    unfold itemMap pyGet
    rw [hlook]
    by_cases hf : jFalsy v = true
    · rw [if_pos hf]
    · rw [if_neg hf]
      cases v with
      | obj fs => exact absurd rfl (hnobj fs)
      | null => rfl
      | str s => rfl
      | num m e => rfl
      | bool b => rfl
      | arr elems => rfl
  · intro lat
    cases lat with
    | none => rfl
    | some la => rfl

/-- Witness for C8: a whitespace-only coordinate string parses to no
value. -/
theorem claim_C8_witness : to_float " \t " = none :=
  claim_C8.2.1 " \t " (by decide)

/-- Every emitted row carries the digest of its own fields. -/
theorem emitted_sid (data : List JVal) (r : Location) (h : r ∈ emittedRows data) :
    r.source_ids = stable_id r.name r.postcode r.loc_lat r.loc_long := by
  rcases List.mem_filterMap.mp h with ⟨v, _, hv⟩
  obtain ⟨fields, _, _, _, _, _, _, _, _, _, hsid⟩ := processItem_some_inv v r hv
  exact hsid

/-- Claim C3: two emitted rows with identical (lowercased name, uppercased
postcode, raw latitude string, raw longitude string) tuples carry equal
sixteen-hexadecimal-character digests, and exactly one row with that digest
survives deduplication — the last one in filter-emission order. -/
theorem claim_C3 (data : List JVal) (r1 r2 : Location)
    (h1 : r1 ∈ emittedRows data) (h2 : r2 ∈ emittedRows data)
    (hname : pyLower r1.name = pyLower r2.name)
    (hpc : pyUpper r1.postcode = pyUpper r2.postcode)
    (hlat : r1.loc_lat = r2.loc_lat) (hlon : r1.loc_long = r2.loc_long) :
    r1.source_ids = r2.source_ids ∧
    r1.source_ids.length = 16 ∧
    (∀ c ∈ r1.source_ids.toList, c ∈ hexDigits) ∧
    ∃ surv : Location,
      (parse_dataset data).filter (fun r => r.source_ids == r1.source_ids) = [surv] ∧
      ((emittedRows data).filter (fun r => r.source_ids == r1.source_ids)).getLast? =
        some surv := by
  have e1 := emitted_sid data r1 h1
  have e2 := emitted_sid data r2 h2
  have hsid : r1.source_ids = r2.source_ids := by
    rw [e1, e2, hlat, hlon]
    exact stable_id_congr _ _ _ _ _ _ hname hpc
  refine ⟨hsid, ?_, ?_, ?_⟩
  · rw [e1]
    exact (stable_id_hex16 _ _ _ _).1
  · rw [e1]
    exact (stable_id_hex16 _ _ _ _).2
  · have hfil := dedup_filter (emittedRows data) r1.source_ids
    have hne : (emittedRows data).filter (fun r => r.source_ids == r1.source_ids) ≠ [] := by
      intro h0
      have := List.filter_eq_nil_iff.mp h0 r1 h1
      simp at this
    rcases hgl : ((emittedRows data).filter
        (fun r => r.source_ids == r1.source_ids)).getLast? with _ | ⟨surv⟩
    · exact absurd (List.getLast?_eq_none_iff.mp hgl) hne
    · refine ⟨surv, ?_, hgl⟩
      show (dedupLocs (emittedRows data)).filter (fun r => r.source_ids == r1.source_ids) = [surv]
      rw [hfil, hgl]
      rfl

/-- Test fixture for C3: two records identical up to the case of the title
and the phone field. -/
def dataDup : List JVal :=
  [JVal.obj [("title", JVal.str "Dup"),
    ("map", JVal.obj [("address", JVal.str "3 Mid Rd N1 1AA"),
      ("lat", JVal.str "51.0"), ("lng", JVal.str "-0.2")]),
    ("phone", JVal.str "111")],
   JVal.obj [("title", JVal.str "DUP"),
    ("map", JVal.obj [("address", JVal.str "3 Mid Rd N1 1AA"),
      ("lat", JVal.str "51.0"), ("lng", JVal.str "-0.2")]),
    ("phone", JVal.str "222")]]

/-- The first emitted fixture row. -/
def rowDup1 : Location :=
  ⟨"alma", stable_id "Dup" "N1 1AA" "51.0" "-0.2", "Dup", "N1 1AA",
    "3 Mid Rd N1 1AA", "51.0", "-0.2", "", "111"⟩

/-- The second emitted fixture row. -/
def rowDup2 : Location :=
  ⟨"alma", stable_id "DUP" "N1 1AA" "51.0" "-0.2", "DUP", "N1 1AA",
    "3 Mid Rd N1 1AA", "51.0", "-0.2", "", "222"⟩

set_option maxRecDepth 100000 in
/-- Witness for C3 on the duplicate fixture. -/
theorem claim_C3_witness : rowDup1.source_ids = rowDup2.source_ids :=
  (claim_C3 dataDup rowDup1 rowDup2 (by decide) (by decide) (by decide) rfl rfl rfl).1

/-- Claim C10: whitespace normalization is idempotent, and the name and
street address of every output row are fixed points of it — no leading or
trailing whitespace and no run of two or more whitespace characters. -/
theorem claim_C10 :
    (∀ s : String, norm_ws (norm_ws s) = norm_ws s) ∧
    ∀ (data : List JVal) (loc : Location), loc ∈ parse_dataset data →
      norm_ws loc.name = loc.name ∧ norm_ws loc.streetaddress = loc.streetaddress ∧
      wsTidy loc.name.toList = true ∧ wsTidy loc.streetaddress.toList = true := by
  constructor
  · exact norm_ws_idem
  · intro data loc h
    obtain ⟨v, _, hv⟩ := parse_dataset_mem_inv data loc h
    obtain ⟨fields, _, _, hname, haddr, _, _, _, _, _, _⟩ :=
      processItem_some_inv v loc hv
    refine ⟨?_, ?_, ?_, ?_⟩
    · rw [hname]
      exact norm_ws_idem (getStrOr fields "title")
    · rw [haddr]
      exact norm_ws_idem (getStrOr (itemMap fields) "address")
    · rw [hname]
      exact (norm_ws_tidy (getStrOr fields "title")).1
    · rw [haddr]
      exact (norm_ws_tidy (getStrOr (itemMap fields) "address")).1

/-- Test fixture for C10: a record with untidy whitespace in its title and
address. -/
def dataEdge : List JVal :=
  [JVal.obj [("title", JVal.str "Edge  Case"),
    ("map", JVal.obj [("address", JVal.str " Somewhere  Nice "),
      ("lat", JVal.str "55.0"), ("lng", JVal.str "-2.0")])]]

/-- The output fixture row of C10. -/
def rowEdge : Location :=
  ⟨"alma", stable_id "Edge Case" "" "55.0" "-2.0", "Edge Case", "",
    "Somewhere Nice", "55.0", "-2.0", "", ""⟩

set_option maxRecDepth 100000 in
/-- Witness for C10 on the whitespace fixture. -/
theorem claim_C10_witness :
    norm_ws rowEdge.name = rowEdge.name ∧
      norm_ws rowEdge.streetaddress = rowEdge.streetaddress ∧
      wsTidy rowEdge.name.toList = true ∧
      wsTidy rowEdge.streetaddress.toList = true :=
  claim_C10.2 dataEdge rowEdge (by decide)

end Alma
